import Mathlib

set_option maxRecDepth 8192

namespace BdkSqlite

/-!
Shallow embedding of the bdk-sqlite store (src/async_store.rs, src/wallet.rs,
src/error.rs).

Identifiers (txids, block hashes, descriptor ids, descriptors, network names)
travel through SQLite as text via lossless to_string / parse codecs; they are
modelled as `Nat` and the text codec as the identity.  Scripts are opaque byte
blobs (`Bytes`).  A bitcoin `Transaction` is modelled abstractly as a `Nat`
together with an injective consensus codec whose encodings are nonempty byte
strings; consensus deserialization fails on any byte string that is not an
encoding, in particular on the empty blob.  `u64`/`u32` become `Nat`,
`i64` becomes `Int` with the `i64::try_from` bound `2 ^ 63` made explicit.

Each SQLite table is an association list from its primary key to its non-key
columns, in row (insertion) order; `ON CONFLICT DO UPDATE` updates the
conflicting row in place, `INSERT OR IGNORE` leaves a conflicting row
untouched, and plain `INSERT` appends.  The `block` table has no uniqueness
constraint on `height` (the FIXME in src/async_store.rs says such a
constraint is missing), so it is a plain row list.  Reading a NULL column
through `sqlx` `row.get` with a non-`Option` Rust type follows the
`sqlite3_value` coercions: NULL reads as `0` for integers and as the empty
blob for byte strings.
-/

abbrev Bytes := List Nat

/-- Crate error enum (src/error.rs), one variant per failure source;
`procAbort` additionally models a process abort (an `unwrap()` or `panic!`
in src/wallet.rs), which is not a value of the crate error type. -/
inductive Err where
  | decode
  | fromInt
  | hexToArray
  | migrate
  | miniscript
  | parseNetwork
  | sqlx
  | procAbort
deriving DecidableEq

/-! ## Value codec (src/error.rs conversions used by async_store.rs) -/

/-- `i64::try_from(u64)`: succeeds exactly when the value fits a signed
64-bit integer. -/
def i64OfU64 (n : Nat) : Except Err Int :=
  if n < 2 ^ 63 then .ok (Int.ofNat n) else .error .fromInt

/-- `u64::try_from(i64)` (`.try_into()?` on read): fails exactly on negative
values. -/
def u64OfI64 (i : Int) : Except Err Nat :=
  if 0 ≤ i then .ok i.toNat else .error .fromInt

/-- `consensus::encode::serialize` of a transaction: injective, nonempty. -/
def serializeTx (t : Nat) : Bytes := [t]

/-- `consensus::encode::deserialize`: partial inverse of `serializeTx`,
failing on every non-encoding, in particular on the empty blob. -/
def deserializeTx : Bytes → Except Err Nat
  | [b] => .ok b
  | _ => .error .decode

/-- `Transaction::compute_txid`, injective on the abstract transactions. -/
def compute_txid (t : Nat) : Nat := t

/-- `row.get::<i64>` on a possibly NULL integer column: NULL reads as 0. -/
def getI64 (o : Option Int) : Int := o.getD 0

/-- `row.get::<Vec<u8>>` on a possibly NULL blob column: NULL reads as the
empty blob. -/
def getBlob (o : Option Bytes) : Bytes := o.getD []

/-! ## Generic association-list table operations -/

/-- Row lookup by primary key (first matching row). -/
def tlookup {K V : Type} [DecidableEq K] : List (K × V) → K → Option V
  | [], _ => none
  | (k, v) :: rest, k2 => if k2 = k then some v else tlookup rest k2

/-- `INSERT ... ON CONFLICT DO UPDATE`: update the conflicting row in place
with `u`, or append a fresh row `i`. -/
def updIns {K V : Type} [DecidableEq K] (k : K) (u : V → V) (i : V) :
    List (K × V) → List (K × V)
  | [] => [(k, i)]
  | (k2, v) :: rest => if k = k2 then (k2, u v) :: rest else (k2, v) :: updIns k u i rest

/-- `INSERT OR IGNORE`: keep a conflicting row untouched, else append. -/
def insIgn {K V : Type} [DecidableEq K] (k : K) (v : V) (t : List (K × V)) :
    List (K × V) :=
  match tlookup t k with
  | some _ => t
  | none => t ++ [(k, v)]

def keysOf {K V : Type} (t : List (K × V)) : List K := t.map Prod.fst

/-- One upsert statement per delta entry, in iteration order. -/
def foldUpd {K V A : Type} [DecidableEq K] (u : A → V → V) (i : A → V) :
    List (K × A) → List (K × V) → List (K × V)
  | [], t => t
  | (k, a) :: rest, t => foldUpd u i rest (updIns k (u a) (i a) t)

/-- One upsert statement per delta entry with a bind-time value conversion;
a failing conversion aborts before executing its statement, leaving the
table as accumulated so far (the `?` early return in the write loops). -/
def foldUpdC {K V A B : Type} [DecidableEq K] (conv : A → Except Err B)
    (u : B → V → V) (i : B → V) :
    List (K × A) → List (K × V) → List (K × V) × Option Err
  | [], t => (t, none)
  | (k, a) :: rest, t =>
    match conv a with
    | .error e => (t, some e)
    | .ok b => foldUpdC conv u i rest (updIns k (u b) (i b) t)

/-- One `INSERT OR IGNORE` statement per delta entry with a bind-time value
conversion and the same early-return behaviour. -/
def foldInsIgnC {K A B : Type} [DecidableEq K] (conv : A → Except Err B) :
    List (K × A) → List (K × B) → List (K × B) × Option Err
  | [], t => (t, none)
  | (k, a) :: rest, t =>
    match conv a with
    | .error e => (t, some e)
    | .ok b => foldInsIgnC conv rest (insIgn k b t)

/-- `BTreeSet::insert` on the read side. -/
def setInsert {A : Type} [DecidableEq A] (x : A) (l : List A) : List A :=
  if x ∈ l then l else l ++ [x]

/-- `BTreeMap::insert` on the read side (overwrite). -/
def mapInsert {K V : Type} [DecidableEq K] (k : K) (v : V) (t : List (K × V)) :
    List (K × V) :=
  updIns k (fun _ => v) v t

/-! ## Data model: rows and database state -/

/-- A row of the `tx` table: key `txid`; all non-key columns nullable. -/
structure TxRow where
  tx : Option Bytes
  first_seen : Option Int
  last_seen : Option Int
  last_evicted : Option Int
deriving DecidableEq

/-- A row of the `txout` table: key `(txid, vout)`. -/
structure TxoutRow where
  value : Int
  script : Bytes
deriving DecidableEq

/-- The SQLite database state, one association list per table of the schema
(§6: `tx`, `txout`, `anchor`, `block`, `keychain`, `keychain_last_revealed`,
`keychain_script_pubkey`, `network`). -/
structure DB where
  network : List Nat
  keychain : List (Nat × Nat)
  block : List (Nat × Nat)
  tx : List (Nat × TxRow)
  txout : List ((Nat × Nat) × TxoutRow)
  anchor : List ((Nat × Nat × Nat) × Int)
  lastRevealed : List (Nat × Nat)
  spkCache : List ((Nat × Nat) × Bytes)
deriving DecidableEq

def emptyDB : DB := ⟨[], [], [], [], [], [], [], []⟩

/-! ## Data model: changesets (the bdk types persisted by the store) -/

/-- `ConfirmationBlockTime`: a block id plus a confirmation time. -/
structure AnchorT where
  height : Nat
  hash : Nat
  confirmation_time : Nat
deriving DecidableEq

/-- `TxOut`: value in satoshis (`u64`) and locking script. -/
structure TxoutV where
  value : Nat
  script : Bytes
deriving DecidableEq

/-- `tx_graph::ChangeSet`: transactions, outputs, anchors and the three
per-transaction timestamp maps. -/
structure TxGraphCS where
  txs : List Nat
  txouts : List ((Nat × Nat) × TxoutV)
  anchors : List (AnchorT × Nat)
  first_seen : List (Nat × Nat)
  last_seen : List (Nat × Nat)
  last_evicted : List (Nat × Nat)
deriving DecidableEq

/-- `local_chain::ChangeSet`: height to optional hash (None = retract). -/
structure LocalChainCS where
  blocks : List (Nat × Option Nat)
deriving DecidableEq

/-- `keychain_txout::ChangeSet`: last revealed indices and the script cache
(a nested map descriptor id to (derivation index to script)). -/
structure KeychainTxoutCS where
  last_revealed : List (Nat × Nat)
  spk_cache : List (Nat × List (Nat × Bytes))
deriving DecidableEq

/-- `bdk_wallet::ChangeSet`. -/
structure ChangeSet where
  descriptor : Option Nat
  change_descriptor : Option Nat
  network : Option Nat
  local_chain : LocalChainCS
  tx_graph : TxGraphCS
  indexer : KeychainTxoutCS
deriving DecidableEq

def emptyTxGraphCS : TxGraphCS := ⟨[], [], [], [], [], []⟩

def emptyChangeSet : ChangeSet := ⟨none, none, none, ⟨[]⟩, emptyTxGraphCS, ⟨[], []⟩⟩

/-! ## Write path (src/async_store.rs) -/

def updTxField (b : Bytes) (r : TxRow) : TxRow := { r with tx := some b }

def updFS (i : Int) (r : TxRow) : TxRow := { r with first_seen := some i }

def updLS (i : Int) (r : TxRow) : TxRow := { r with last_seen := some i }

def updLE (i : Int) (r : TxRow) : TxRow := { r with last_evicted := some i }

def insTxRow (b : Bytes) : TxRow := ⟨some b, none, none, none⟩

def insFS (i : Int) : TxRow := ⟨none, some i, none, none⟩

def insLS (i : Int) : TxRow := ⟨none, none, some i, none⟩

def insLE (i : Int) : TxRow := ⟨none, none, none, some i⟩

/-- The `txs` loop: `INSERT INTO tx(txid, tx) VALUES($1, $2) ON CONFLICT DO
UPDATE SET tx = $2`. -/
def writeTxsT (txs : List Nat) (t : List (Nat × TxRow)) : List (Nat × TxRow) :=
  foldUpd updTxField insTxRow (txs.map fun tx => (compute_txid tx, serializeTx tx)) t

/-- A timestamp loop: `INSERT INTO tx(txid, c) VALUES($1, $2) ON CONFLICT DO
UPDATE SET c = $2` with `i64::try_from(*t)?` at bind time. -/
def writeTsT (u : Int → TxRow → TxRow) (i : Int → TxRow)
    (d : List (Nat × Nat)) (t : List (Nat × TxRow)) :
    List (Nat × TxRow) × Option Err :=
  foldUpdC i64OfU64 u i d t

def convTxout (v : TxoutV) : Except Err TxoutRow :=
  match i64OfU64 v.value with
  | .error e => .error e
  | .ok i => .ok ⟨i, v.script⟩

/-- The `txouts` loop: upsert overwriting both `value` and `script`, with
`i64::try_from(value.to_sat())?` at bind time. -/
def writeTxoutsT (d : List ((Nat × Nat) × TxoutV))
    (t : List ((Nat × Nat) × TxoutRow)) :
    List ((Nat × Nat) × TxoutRow) × Option Err :=
  foldUpdC convTxout (fun r _ => r) (fun r => r) d t

def anchorKey (p : AnchorT × Nat) : Nat × Nat × Nat := (p.1.height, p.1.hash, p.2)

/-- The `anchors` loop: `INSERT OR IGNORE INTO anchor(...)` keyed by
(block_height, block_hash, txid), with `i64::try_from(confirmation_time)?`
at bind time. -/
def writeAnchorsT (d : List (AnchorT × Nat))
    (t : List ((Nat × Nat × Nat) × Int)) :
    List ((Nat × Nat × Nat) × Int) × Option Err :=
  foldInsIgnC i64OfU64 (d.map fun p => (anchorKey p, p.1.confirmation_time)) t

/-- The `tx`-table part of `write_tx_graph`: txs, then first_seen, then
last_seen, then last_evicted, with the early return on a failed conversion. -/
def writeTxPart (g : TxGraphCS) (t : List (Nat × TxRow)) :
    List (Nat × TxRow) × Option Err :=
  let t0 := writeTxsT g.txs t
  match writeTsT updFS insFS g.first_seen t0 with
  | (t1, some e) => (t1, some e)
  | (t1, none) =>
    match writeTsT updLS insLS g.last_seen t1 with
    | (t2, some e) => (t2, some e)
    | (t2, none) => writeTsT updLE insLE g.last_evicted t2

/-- `Store::write_tx_graph`: tx rows, then txouts, then anchors, returning
at the first failed conversion with all previously executed statements
still applied. -/
def write_tx_graph (g : TxGraphCS) (s : DB) : DB × Option Err :=
  match writeTxPart g s.tx with
  | (t, some e) => ({ s with tx := t }, some e)
  | (t, none) =>
    match writeTxoutsT g.txouts s.txout with
    | (o, some e) => ({ s with tx := t, txout := o }, some e)
    | (o, none) =>
      match writeAnchorsT g.anchors s.anchor with
      | (a, e) => ({ s with tx := t, txout := o, anchor := a }, e)

/-- `DELETE FROM block WHERE height = $1`. -/
def delHeight (h : Nat) : List (Nat × Nat) → List (Nat × Nat)
  | [] => []
  | r :: rest => if r.1 = h then delHeight h rest else r :: delHeight h rest

/-- `Store::write_local_chain` body: for a known hash, first `SELECT height
FROM block WHERE height = $1` and only insert (`INSERT OR IGNORE`) when no
row of that height exists; for an unknown hash, delete the rows of that
height. -/
def writeLCT : List (Nat × Option Nat) → List (Nat × Nat) → List (Nat × Nat)
  | [], t => t
  | (h, some hb) :: rest, t =>
    if (tlookup t h).isSome then writeLCT rest t
    else writeLCT rest (t ++ [(h, hb)])
  | (h, none) :: rest, t => writeLCT rest (delHeight h t)

def write_local_chain (c : LocalChainCS) (s : DB) : DB :=
  { s with block := writeLCT c.blocks s.block }

/-- The nested `spk_cache` loops flattened in iteration order. -/
def flattenSpk : List (Nat × List (Nat × Bytes)) → List ((Nat × Nat) × Bytes)
  | [] => []
  | (d, inner) :: rest => (inner.map fun p => ((d, p.1), p.2)) ++ flattenSpk rest

/-- `Store::write_keychain_txout`: upsert of `last_revealed` per descriptor,
then `INSERT OR IGNORE` of each cached script keyed by
(descriptor_id, derivation_index); no value conversion can fail. -/
def write_keychain_txout (c : KeychainTxoutCS) (s : DB) : DB :=
  { s with
      lastRevealed := foldUpd (fun (v : Nat) _ => v) (fun v => v) c.last_revealed s.lastRevealed,
      spkCache := (foldInsIgnC (fun (b : Bytes) => Except.ok b) (flattenSpk c.spk_cache) s.spkCache).1 }

/-- `Store::write_changeset` (src/wallet.rs): network insert, descriptor
inserts (External = 0 first, then Internal = 1), local chain, tx graph,
indexer; the `Result`s of the three store writes are discarded. -/
def write_changeset (c : ChangeSet) (s : DB) : DB :=
  let s1 := match c.network with
    | some n => { s with network := s.network ++ [n] }
    | none => s
  let s2 := match c.descriptor with
    | some d => { s1 with keychain := s1.keychain ++ [(0, d)] }
    | none => s1
  let s3 := match c.change_descriptor with
    | some d => { s2 with keychain := s2.keychain ++ [(1, d)] }
    | none => s2
  let s4 := write_local_chain c.local_chain s3
  let s5 := (write_tx_graph c.tx_graph s4).1
  write_keychain_txout c.indexer s5

/-! ## Read path -/

/-- `Store::read_network`: `fetch_optional` returns the first row. -/
def read_network (s : DB) : Option Nat := s.network.head?

/-- `Store::read_keychain_descriptors` row loop: decode the role code,
panicking (`procAbort`) on anything but 0 or 1; later rows overwrite
earlier ones in the map. -/
def readDescAux : List (Nat × Nat) → List (Nat × Nat) → Except Err (List (Nat × Nat))
  | [], acc => .ok acc
  | (role, d) :: rest, acc =>
    if role = 0 then readDescAux rest (mapInsert 0 d acc)
    else if role = 1 then readDescAux rest (mapInsert 1 d acc)
    else .error .procAbort

def read_keychain_descriptors (s : DB) : Except Err (List (Nat × Nat)) :=
  readDescAux s.keychain []

/-- The `tx`-table row loop of `read_tx_graph`: every row unconditionally
decodes the raw transaction and all three timestamps and inserts into all
four collections; any decode failure aborts the whole read. -/
def readTxRows : List (Nat × TxRow) → TxGraphCS → Except Err TxGraphCS
  | [], acc => .ok acc
  | (txid, r) :: rest, acc =>
    match deserializeTx (getBlob r.tx) with
    | .error e => .error e
    | .ok tx =>
      match u64OfI64 (getI64 r.first_seen) with
      | .error e => .error e
      | .ok fs =>
        match u64OfI64 (getI64 r.last_seen) with
        | .error e => .error e
        | .ok ls =>
          match u64OfI64 (getI64 r.last_evicted) with
          | .error e => .error e
          | .ok lev =>
            readTxRows rest
              { acc with
                  txs := setInsert tx acc.txs,
                  first_seen := mapInsert txid fs acc.first_seen,
                  last_seen := mapInsert txid ls acc.last_seen,
                  last_evicted := mapInsert txid lev acc.last_evicted }

def readTxoutRows : List ((Nat × Nat) × TxoutRow) → TxGraphCS → Except Err TxGraphCS
  | [], acc => .ok acc
  | (op, r) :: rest, acc =>
    match u64OfI64 r.value with
    | .error e => .error e
    | .ok v => readTxoutRows rest { acc with txouts := mapInsert op ⟨v, r.script⟩ acc.txouts }

def readAnchorRows : List ((Nat × Nat × Nat) × Int) → TxGraphCS → Except Err TxGraphCS
  | [], acc => .ok acc
  | ((h, hb, txid), confT) :: rest, acc =>
    match u64OfI64 confT with
    | .error e => .error e
    | .ok ct => readAnchorRows rest { acc with anchors := setInsert (⟨h, hb, ct⟩, txid) acc.anchors }

/-- `Store::read_tx_graph`. -/
def read_tx_graph (s : DB) : Except Err TxGraphCS :=
  match readTxRows s.tx emptyTxGraphCS with
  | .error e => .error e
  | .ok g1 =>
    match readTxoutRows s.txout g1 with
    | .error e => .error e
    | .ok g2 => readAnchorRows s.anchor g2

def readBlockRows : List (Nat × Nat) → List (Nat × Option Nat) → List (Nat × Option Nat)
  | [], acc => acc
  | (h, hb) :: rest, acc => readBlockRows rest (mapInsert h (some hb) acc)

/-- `Store::read_local_chain`: every stored row becomes a `Some hash` entry;
absence of a row means absence of an entry. -/
def read_local_chain (s : DB) : LocalChainCS := ⟨readBlockRows s.block []⟩

def readSpkRows : List ((Nat × Nat) × Bytes) → List (Nat × List (Nat × Bytes)) → List (Nat × List (Nat × Bytes))
  | [], acc => acc
  | ((d, idx), scr) :: rest, acc =>
    readSpkRows rest (updIns d (fun inner => mapInsert idx scr inner) [(idx, scr)] acc)

/-- `Store::read_keychain_txout`. -/
def read_keychain_txout (s : DB) : KeychainTxoutCS :=
  ⟨foldUpd (fun (v : Nat) _ => v) (fun v => v) s.lastRevealed [], readSpkRows s.spkCache []⟩

/-- `Store::read_changeset` (src/wallet.rs): assembles the full snapshot;
read failures (unwraps in the source) surface as the error outcome. -/
def read_changeset (s : DB) : Except Err ChangeSet :=
  match read_keychain_descriptors s with
  | .error e => .error e
  | .ok descs =>
    match read_tx_graph s with
    | .error e => .error e
    | .ok g =>
      .ok { descriptor := tlookup descs 0,
            change_descriptor := tlookup descs 1,
            network := read_network s,
            local_chain := read_local_chain s,
            tx_graph := g,
            indexer := read_keychain_txout s }

/-! ## Persister adapter (impl AsyncWalletPersister for Store, Error = ()) -/

/-- `AsyncWalletPersister::initialize`: `persister.migrate().await;` discards
the migration `Result` (the first argument models the outcome of the
external migration run), then returns `Ok(read_changeset())`. -/
def initializeStore (_migrationOutcome : Except Err Unit) (s : DB) : Except Err ChangeSet :=
  read_changeset s

/-- `AsyncWalletPersister::persist`: `Ok(write_changeset(...))`; the
associated error type is the unit type, and every inner write error has
already been discarded inside `write_changeset`. -/
def persist (c : ChangeSet) (s : DB) : DB × Except Unit Unit :=
  (write_changeset c s, Except.ok ())

/-! ## Proof-layer helper definitions -/

/-- Keys of a table are pairwise distinct (the map/set invariant of the
bdk changeset collections, and of every table reached from the empty
database). -/
def nodupKeys {K V : Type} (t : List (K × V)) : Prop := (keysOf t).Nodup

instance {K V : Type} [DecidableEq K] (t : List (K × V)) : Decidable (nodupKeys t) := by
  unfold nodupKeys
  infer_instance

/-- Pure `INSERT OR IGNORE` fold (used once every conversion succeeds). -/
def foldInsIgn {K B : Type} [DecidableEq K] : List (K × B) → List (K × B) → List (K × B)
  | [], t => t
  | (k, b) :: rest, t => foldInsIgn rest (insIgn k b t)

/-- The hashes of the `block` rows at a given height, in row order. -/
def rowsAt (h : Nat) : List (Nat × Nat) → List Nat
  | [] => []
  | (h2, v) :: rest => if h2 = h then v :: rowsAt h rest else rowsAt h rest

/-- The hash of the last `block` row at a given height, if any (the value
that wins in the map built by `read_local_chain`). -/
def lastAt (h : Nat) : List (Nat × Nat) → Option Nat
  | [] => none
  | (h2, v) :: rest =>
    match lastAt h rest with
    | some w => some w
    | none => if h2 = h then some v else none

/-- Pure form of a timestamp upsert loop once every conversion succeeds. -/
def tsFoldP (u : Int → TxRow → TxRow) (i : Int → TxRow) (d : List (Nat × Nat)) :
    List (Nat × TxRow) → List (Nat × TxRow) :=
  foldUpd (fun a v => u (Int.ofNat a) v) (fun a => i (Int.ofNat a)) d

/-- Pure form of the txout upsert loop once every conversion succeeds. -/
def txoutFoldP (d : List ((Nat × Nat) × TxoutV)) :
    List ((Nat × Nat) × TxoutRow) → List ((Nat × Nat) × TxoutRow) :=
  foldUpd (fun (a : TxoutV) (_ : TxoutRow) => (⟨Int.ofNat a.value, a.script⟩ : TxoutRow))
    (fun a => ⟨Int.ofNat a.value, a.script⟩) d

/-- Pure form of the anchor insert-ignore loop once every conversion
succeeds. -/
def anchorFoldP (d : List (AnchorT × Nat)) :
    List ((Nat × Nat × Nat) × Int) → List ((Nat × Nat × Nat) × Int) :=
  foldInsIgn (d.map fun p => (anchorKey p, Int.ofNat p.1.confirmation_time))

/-- A changeset whose only content is a first-seen timestamp for txid 1,
with no raw transaction (a corner case named by the round-trip claim). -/
def tsOnlyCS : ChangeSet :=
  { emptyChangeSet with tx_graph := { emptyTxGraphCS with first_seen := [(1, 5)] } }

/-- A changeset whose only content is a first-seen timestamp that does not
fit a signed 64-bit integer. -/
def hugeTsCS : ChangeSet :=
  { emptyChangeSet with tx_graph := { emptyTxGraphCS with first_seen := [(1, 2 ^ 63)] } }

/-- The network table rows laid down by one write from empty. -/
def optNetRows : Option Nat → List Nat
  | some n => [n]
  | none => []

/-- The keychain table rows laid down by one write from empty (External
role 0 first, then Internal role 1, matching the BTreeMap iteration). -/
def descRows (d cd : Option Nat) : List (Nat × Nat) :=
  (match d with | some x => [(0, x)] | none => []) ++
  (match cd with | some x => [(1, x)] | none => [])

/-- A changeset with one entity of every kind, used to witness the
round-trip property. -/
def richCS : ChangeSet :=
  { descriptor := some 11,
    change_descriptor := some 12,
    network := some 3,
    local_chain := ⟨[(100, some 7)]⟩,
    tx_graph := ⟨[1], [((1, 0), ⟨50, [2, 3]⟩)], [(⟨5, 6, 500⟩, 1)],
      [(1, 10)], [(1, 20)], [(1, 30)]⟩,
    indexer := ⟨[(9, 4)], [(9, [(0, [8])])]⟩ }

/-- A changeset restricted to the upsert collections (timestamps, outputs,
derivation index), used to witness idempotence. -/
def upsertOnlyCS : ChangeSet :=
  { emptyChangeSet with
      tx_graph := { emptyTxGraphCS with
        first_seen := [(1, 10)],
        last_seen := [(1, 20)],
        last_evicted := [(1, 30)],
        txouts := [((1, 0), ⟨50, [2]⟩)] },
      indexer := ⟨[(9, 4)], []⟩ }

/-! ## Generic table lemmas -/

theorem tlookup_updIns_self {K V : Type} [DecidableEq K] (k : K) (u : V → V) (i : V)
    (t : List (K × V)) :
    tlookup (updIns k u i t) k =
      some (match tlookup t k with | some v => u v | none => i) := by
  induction t with
  | nil => simp [updIns, tlookup]
  | cons p rest ih =>
    obtain ⟨a, v⟩ := p
    by_cases h : k = a
    · subst h
      simp [updIns, tlookup]
    · simp [updIns, tlookup, h, ih]

theorem tlookup_updIns_ne {K V : Type} [DecidableEq K] {k k2 : K} (h : k2 ≠ k)
    (u : V → V) (i : V) (t : List (K × V)) :
    tlookup (updIns k u i t) k2 = tlookup t k2 := by
  induction t with
  | nil => simp [updIns, tlookup, h]
  | cons p rest ih =>
    obtain ⟨a, v⟩ := p
    by_cases hk : k = a
    · subst hk
      simp [updIns, tlookup, h]
    · simp [updIns, tlookup, hk, ih]

theorem updIns_noop {K V : Type} [DecidableEq K] {k : K} {v : V} (u : V → V) (i : V)
    (t : List (K × V)) (hl : tlookup t k = some v) (hu : u v = v) :
    updIns k u i t = t := by
  induction t with
  | nil => simp [tlookup] at hl
  | cons p rest ih =>
    obtain ⟨a, w⟩ := p
    by_cases hk : k = a
    · subst hk
      have hw : w = v := by simpa [tlookup] using hl
      subst hw
      simp [updIns, hu]
    · have hl2 : tlookup rest k = some v := by
        simpa [tlookup, hk] using hl
      simp [updIns, hk, ih hl2]

theorem tlookup_updIns_isSome {K V : Type} [DecidableEq K] (k q : K) (u : V → V) (i : V)
    (t : List (K × V)) (h : (tlookup t q).isSome) :
    (tlookup (updIns k u i t) q).isSome := by
  by_cases hq : q = k
  · subst hq
    rw [tlookup_updIns_self]
    simp
  · rw [tlookup_updIns_ne hq]
    exact h

theorem foldUpd_lookup_not_mem {K V A : Type} [DecidableEq K] (u : A → V → V) (i : A → V)
    {k : K} (d : List (K × A)) (t : List (K × V)) (h : k ∉ keysOf d) :
    tlookup (foldUpd u i d t) k = tlookup t k := by
  induction d generalizing t with
  | nil => rfl
  | cons p rest ih =>
    obtain ⟨a, b⟩ := p
    have hka : k ≠ a := by
      intro he
      exact h (by simp [keysOf, he])
    have hrest : k ∉ keysOf rest := by
      intro hm
      exact h (by simp [keysOf] at hm ⊢; exact Or.inr hm)
    simp only [foldUpd]
    rw [ih _ hrest, tlookup_updIns_ne hka]

theorem foldUpd_lookup_mem {K V A : Type} [DecidableEq K] (u : A → V → V) (i : A → V)
    {k : K} {a : A} (d : List (K × A)) (t : List (K × V))
    (hnd : nodupKeys d) (hm : (k, a) ∈ d) :
    tlookup (foldUpd u i d t) k =
      some (match tlookup t k with | some v => u a v | none => i a) := by
  induction d generalizing t with
  | nil => simp at hm
  | cons p rest ih =>
    obtain ⟨k2, a2⟩ := p
    rw [nodupKeys, keysOf, List.map_cons, List.nodup_cons] at hnd
    obtain ⟨hk2, hndrest⟩ := hnd
    have hnd2 : nodupKeys rest := hndrest
    rcases List.mem_cons.mp hm with hhead | htail
    · obtain ⟨hk, ha⟩ := Prod.ext_iff.mp hhead
      simp only at hk ha
      subst hk
      subst ha
      have hknotin : k ∉ keysOf rest := by
        intro hmem
        exact hk2 (by simpa [keysOf] using hmem)
      simp only [foldUpd]
      rw [foldUpd_lookup_not_mem u i rest _ hknotin, tlookup_updIns_self]
    · have hkne : k ≠ k2 := by
        intro he
        subst he
        exact hk2 (List.mem_map.mpr ⟨(k, a), htail, rfl⟩)
      simp only [foldUpd]
      rw [ih _ hnd2 htail, tlookup_updIns_ne hkne]

/-- An invariant `P` of the looked-up row at `k` survives a write fold:
updates must preserve `P`, and the key must be present so the insert arm
never runs for it. -/
theorem foldUpd_lookup_invariant {K V A : Type} [DecidableEq K] (u : A → V → V) (i : A → V)
    {k : K} (P : V → Prop) (d : List (K × A)) (t : List (K × V)) {v : V}
    (hP : ∀ a w, P w → P (u a w)) (hl : tlookup t k = some v) (hv : P v) :
    ∃ w, tlookup (foldUpd u i d t) k = some w ∧ P w := by
  induction d generalizing t v with
  | nil => exact ⟨v, hl, hv⟩
  | cons p rest ih =>
    obtain ⟨k2, a2⟩ := p
    by_cases hk : k = k2
    · subst hk
      simp only [foldUpd]
      have hl2 : tlookup (updIns k (u a2) (i a2) t) k = some (u a2 v) := by
        rw [tlookup_updIns_self, hl]
      exact ih _ hl2 (hP a2 v hv)
    · simp only [foldUpd]
      have hl2 : tlookup (updIns k2 (u a2) (i a2) t) k = some v := by
        rw [tlookup_updIns_ne hk]
        exact hl
      exact ih _ hl2 hv

/-- A write fold whose every entry is already stored with its final row
value is a no-op on the table. -/
theorem foldUpd_noop {K V A : Type} [DecidableEq K] (u : A → V → V) (i : A → V)
    (d : List (K × A)) (t : List (K × V))
    (h : ∀ p, p ∈ d → ∃ v, tlookup t p.1 = some v ∧ u p.2 v = v) :
    foldUpd u i d t = t := by
  induction d with
  | nil => rfl
  | cons p rest ih =>
    obtain ⟨k, a⟩ := p
    obtain ⟨v, hl, hu⟩ := h (k, a) (List.mem_cons_self _ _)
    simp only [foldUpd]
    rw [updIns_noop (u a) (i a) t hl hu]
    exact ih (fun q hq => h q (List.mem_cons_of_mem _ hq))

theorem tlookup_eq_none_iff {K V : Type} [DecidableEq K] (t : List (K × V)) (k : K) :
    tlookup t k = none ↔ k ∉ keysOf t := by
  induction t with
  | nil => simp [tlookup, keysOf]
  | cons p rest ih =>
    obtain ⟨a, v⟩ := p
    by_cases hk : k = a
    · subst hk
      simp [tlookup, keysOf]
    · simp [tlookup, keysOf, hk, ih]

theorem keysOf_updIns {K V : Type} [DecidableEq K] (k : K) (u : V → V) (i : V)
    (t : List (K × V)) :
    keysOf (updIns k u i t) =
      if (tlookup t k).isSome then keysOf t else keysOf t ++ [k] := by
  induction t with
  | nil => simp [updIns, tlookup, keysOf]
  | cons p rest ih =>
    obtain ⟨a, v⟩ := p
    by_cases hk : k = a
    · subst hk
      simp [updIns, tlookup, keysOf]
    · have hk2 : ¬ (k = a) := hk
      simp only [updIns, if_neg hk2, keysOf, List.map_cons, tlookup, if_neg hk2]
      rw [keysOf] at ih
      rw [ih]
      by_cases hs : (tlookup rest k).isSome
      · simp [hs, keysOf]
      · simp [hs, keysOf]

theorem updIns_nodupKeys {K V : Type} [DecidableEq K] (k : K) (u : V → V) (i : V)
    (t : List (K × V)) (h : nodupKeys t) : nodupKeys (updIns k u i t) := by
  rw [nodupKeys, keysOf_updIns]
  cases hres : tlookup t k with
  | some v =>
    simp only [hres, Option.isSome_some, if_true]
    exact h
  | none =>
    simp only [hres, Option.isSome_none, Bool.false_eq_true, if_false]
    rw [List.nodup_append]
    refine ⟨h, List.nodup_singleton _, ?_⟩
    intro x hx hxk
    rw [List.mem_singleton] at hxk
    subst hxk
    exact ((tlookup_eq_none_iff t x).mp hres) hx

theorem foldUpd_nodupKeys {K V A : Type} [DecidableEq K] (u : A → V → V) (i : A → V)
    (d : List (K × A)) (t : List (K × V)) (h : nodupKeys t) :
    nodupKeys (foldUpd u i d t) := by
  induction d generalizing t with
  | nil => exact h
  | cons p rest ih =>
    simp only [foldUpd]
    exact ih _ (updIns_nodupKeys _ _ _ _ h)

theorem tlookup_of_mem {K V : Type} [DecidableEq K] {k : K} {v : V} {t : List (K × V)}
    (hnd : nodupKeys t) (hm : (k, v) ∈ t) : tlookup t k = some v := by
  induction t with
  | nil => simp at hm
  | cons p rest ih =>
    obtain ⟨a, w⟩ := p
    rw [nodupKeys, keysOf, List.map_cons, List.nodup_cons] at hnd
    obtain ⟨ha, hrest⟩ := hnd
    rcases List.mem_cons.mp hm with hhead | htail
    · obtain ⟨h1, h2⟩ := Prod.ext_iff.mp hhead
      simp only at h1 h2
      subst h1
      subst h2
      simp [tlookup]
    · have hka : k ≠ a := by
        intro he
        subst he
        exact ha (List.mem_map.mpr ⟨(k, v), htail, rfl⟩)
      rw [tlookup, if_neg hka]
      exact ih hrest htail

theorem mem_of_tlookup {K V : Type} [DecidableEq K] {k : K} {v : V} {t : List (K × V)}
    (hl : tlookup t k = some v) : (k, v) ∈ t := by
  induction t with
  | nil => simp [tlookup] at hl
  | cons p rest ih =>
    obtain ⟨a, w⟩ := p
    by_cases hk : k = a
    · subst hk
      rw [tlookup, if_pos rfl] at hl
      exact List.mem_cons.mpr (Or.inl (by rw [Option.some.injEq] at hl; rw [hl]))
    · rw [tlookup, if_neg hk] at hl
      exact List.mem_cons_of_mem _ (ih hl)

theorem foldUpd_cons_fresh {K V A : Type} [DecidableEq K] (u : A → V → V) (i : A → V)
    {k : K} (v : V) (d : List (K × A)) (t : List (K × V)) (h : k ∉ keysOf d) :
    foldUpd u i d ((k, v) :: t) = (k, v) :: foldUpd u i d t := by
  induction d generalizing t with
  | nil => rfl
  | cons p rest ih =>
    obtain ⟨k2, a⟩ := p
    have hk : k2 ≠ k := by
      intro he
      exact h (by rw [keysOf, List.map_cons, he]; exact List.mem_cons_self _ _)
    have hrest : k ∉ keysOf rest := by
      intro hm
      exact h (by rw [keysOf, List.map_cons]; exact List.mem_cons_of_mem _ hm)
    simp only [foldUpd, updIns, if_neg hk]
    exact ih _ hrest

/-- A write fold on the empty table lays down exactly the insert image of
the delta, in iteration order. -/
theorem foldUpd_nil_eq_map {K V A : Type} [DecidableEq K] (u : A → V → V) (i : A → V)
    (d : List (K × A)) (hnd : nodupKeys d) :
    foldUpd u i d [] = d.map (fun p => (p.1, i p.2)) := by
  induction d with
  | nil => rfl
  | cons p rest ih =>
    obtain ⟨k, a⟩ := p
    rw [nodupKeys, keysOf, List.map_cons, List.nodup_cons] at hnd
    obtain ⟨hk, hrest⟩ := hnd
    simp only [foldUpd, updIns, List.map_cons]
    rw [foldUpd_cons_fresh u i (i a) rest [] hk, ih hrest]

/-- When every conversion succeeds, the checked write fold is the pure
write fold with no error. -/
theorem foldUpdC_ok {K V A B : Type} [DecidableEq K] (conv : A → Except Err B)
    (cf : A → B) (u : B → V → V) (i : B → V) (d : List (K × A)) (t : List (K × V))
    (h : ∀ p, p ∈ d → conv p.2 = .ok (cf p.2)) :
    foldUpdC conv u i d t =
      (foldUpd (fun a v => u (cf a) v) (fun a => i (cf a)) d t, none) := by
  induction d generalizing t with
  | nil => rfl
  | cons p rest ih =>
    obtain ⟨k, a⟩ := p
    have hc : conv a = .ok (cf a) := h (k, a) (List.mem_cons_self _ _)
    simp only [foldUpdC, foldUpd, hc]
    exact ih _ (fun q hq => h q (List.mem_cons_of_mem _ hq))

theorem insIgn_present {K V : Type} [DecidableEq K] {k : K} {v : V} (w : V)
    (t : List (K × V)) (hl : tlookup t k = some v) : insIgn k w t = t := by
  simp [insIgn, hl]

theorem tlookup_append_left {K V : Type} [DecidableEq K] {k : K} {v : V}
    (t t2 : List (K × V)) (hl : tlookup t k = some v) :
    tlookup (t ++ t2) k = some v := by
  induction t with
  | nil => simp [tlookup] at hl
  | cons p rest ih =>
    obtain ⟨a, w⟩ := p
    by_cases hk : k = a
    · subst hk
      rw [tlookup, if_pos rfl] at hl
      rw [List.cons_append, tlookup, if_pos rfl]
      exact hl
    · rw [tlookup, if_neg hk] at hl
      rw [List.cons_append, tlookup, if_neg hk]
      exact ih hl

theorem tlookup_insIgn_preserve {K V : Type} [DecidableEq K] {q : K} {v : V} (k : K) (w : V)
    (t : List (K × V)) (hl : tlookup t q = some v) :
    tlookup (insIgn k w t) q = some v := by
  rw [insIgn]
  cases hres : tlookup t k with
  | some x => exact hl
  | none => exact tlookup_append_left t _ hl

/-- `INSERT OR IGNORE` folds never change a row that is already present,
whether or not a bind-time conversion fails along the way. -/
theorem foldInsIgnC_preserve {K A B : Type} [DecidableEq K] (conv : A → Except Err B)
    {k : K} {b : B} (d : List (K × A)) (t : List (K × B))
    (hl : tlookup t k = some b) :
    tlookup (foldInsIgnC conv d t).1 k = some b := by
  induction d generalizing t with
  | nil => exact hl
  | cons p rest ih =>
    obtain ⟨k2, a⟩ := p
    simp only [foldInsIgnC]
    cases hc : conv a with
    | error e => exact hl
    | ok b2 => exact ih _ (tlookup_insIgn_preserve k2 b2 t hl)

theorem foldInsIgnC_ok {K A B : Type} [DecidableEq K] (conv : A → Except Err B)
    (cf : A → B) (d : List (K × A)) (t : List (K × B))
    (h : ∀ p, p ∈ d → conv p.2 = .ok (cf p.2)) :
    foldInsIgnC conv d t = (foldInsIgn (d.map fun p => (p.1, cf p.2)) t, none) := by
  induction d generalizing t with
  | nil => rfl
  | cons p rest ih =>
    obtain ⟨k, a⟩ := p
    have hc : conv a = .ok (cf a) := h (k, a) (List.mem_cons_self _ _)
    simp only [foldInsIgnC, foldInsIgn, hc, List.map_cons]
    exact ih _ (fun q hq => h q (List.mem_cons_of_mem _ hq))

theorem insIgn_cons_ne {K V : Type} [DecidableEq K] {k k2 : K} (hne : k2 ≠ k)
    (b : V) (v : V) (t : List (K × V)) :
    insIgn k2 b ((k, v) :: t) = (k, v) :: insIgn k2 b t := by
  rw [insIgn, insIgn, tlookup, if_neg hne]
  cases hres : tlookup t k2 with
  | some x => simp [hres]
  | none => simp [hres]

theorem foldInsIgn_cons_fresh {K B : Type} [DecidableEq K] {k : K} (v : B)
    (d : List (K × B)) (t : List (K × B)) (h : k ∉ keysOf d) :
    foldInsIgn d ((k, v) :: t) = (k, v) :: foldInsIgn d t := by
  induction d generalizing t with
  | nil => rfl
  | cons p rest ih =>
    obtain ⟨k2, b⟩ := p
    have hk : k2 ≠ k := by
      intro he
      exact h (by rw [keysOf, List.map_cons, he]; exact List.mem_cons_self _ _)
    have hrest : k ∉ keysOf rest := by
      intro hm
      exact h (by rw [keysOf, List.map_cons]; exact List.mem_cons_of_mem _ hm)
    simp only [foldInsIgn]
    rw [insIgn_cons_ne hk]
    exact ih _ hrest

/-- An `INSERT OR IGNORE` fold on the empty table lays down the delta
itself, in iteration order. -/
theorem foldInsIgn_nil {K B : Type} [DecidableEq K] (d : List (K × B))
    (hnd : nodupKeys d) : foldInsIgn d [] = d := by
  induction d with
  | nil => rfl
  | cons p rest ih =>
    obtain ⟨k, b⟩ := p
    rw [nodupKeys, keysOf, List.map_cons, List.nodup_cons] at hnd
    obtain ⟨hk, hrest⟩ := hnd
    simp only [foldInsIgn, insIgn, tlookup]
    rw [List.nil_append, foldInsIgn_cons_fresh b rest [] hk, ih hrest]

theorem mem_setInsert_self {A : Type} [DecidableEq A] (x : A) (l : List A) :
    x ∈ setInsert x l := by
  by_cases h : x ∈ l
  · simp [setInsert, h]
  · simp [setInsert, h]

theorem mem_setInsert_of_mem {A : Type} [DecidableEq A] {y : A} (x : A) (l : List A)
    (h : y ∈ l) : y ∈ setInsert x l := by
  by_cases hx : x ∈ l
  · simpa [setInsert, hx]
  · simp [setInsert, hx]
    exact Or.inl h

/-! ## Block table lemmas -/

theorem tlookup_append {K V : Type} [DecidableEq K] (t t2 : List (K × V)) (k : K) :
    tlookup (t ++ t2) k =
      match tlookup t k with | some v => some v | none => tlookup t2 k := by
  induction t with
  | nil => simp [tlookup]
  | cons p rest ih =>
    obtain ⟨a, v⟩ := p
    by_cases hk : k = a
    · subst hk
      simp [tlookup]
    · simp only [List.cons_append, tlookup, if_neg hk]
      exact ih

theorem rowsAt_append_ne (h h2 : Nat) (hne : h2 ≠ h) (v : Nat) (t : List (Nat × Nat)) :
    rowsAt h (t ++ [(h2, v)]) = rowsAt h t := by
  induction t with
  | nil => simp [rowsAt, hne]
  | cons p rest ih =>
    obtain ⟨a, w⟩ := p
    by_cases ha : a = h <;> simp [rowsAt, ha, ih]

theorem rowsAt_append_self (h : Nat) (v : Nat) (t : List (Nat × Nat)) :
    rowsAt h (t ++ [(h, v)]) = rowsAt h t ++ [v] := by
  induction t with
  | nil => simp [rowsAt]
  | cons p rest ih =>
    obtain ⟨a, w⟩ := p
    by_cases ha : a = h <;> simp [rowsAt, ha, ih]

theorem rowsAt_delHeight_self (h : Nat) (t : List (Nat × Nat)) :
    rowsAt h (delHeight h t) = [] := by
  induction t with
  | nil => rfl
  | cons p rest ih =>
    obtain ⟨a, w⟩ := p
    by_cases ha : a = h <;> simp [delHeight, rowsAt, ha, ih]

theorem rowsAt_delHeight_ne (h h2 : Nat) (hne : h ≠ h2) (t : List (Nat × Nat)) :
    rowsAt h (delHeight h2 t) = rowsAt h t := by
  induction t with
  | nil => rfl
  | cons p rest ih =>
    obtain ⟨a, w⟩ := p
    by_cases ha : a = h2
    · have hah : ¬ (a = h) := fun he => hne (Eq.trans (Eq.symm he) ha)
      simp [delHeight, rowsAt, ha, hah, ih, Ne.symm hne]
    · simp [delHeight, rowsAt, ha, ih]

theorem tlookup_delHeight_ne (h h2 : Nat) (hne : h ≠ h2) (t : List (Nat × Nat)) :
    tlookup (delHeight h2 t) h = tlookup t h := by
  induction t with
  | nil => rfl
  | cons p rest ih =>
    obtain ⟨a, w⟩ := p
    by_cases ha : a = h2
    · have hah : ¬ (h = a) := fun he => hne (Eq.trans he ha)
      simp [delHeight, tlookup, ha, hah, ih, hne]
    · simp [delHeight, tlookup, ha, ih]

theorem lastAt_of_rowsAt_nil {h : Nat} {t : List (Nat × Nat)}
    (hr : rowsAt h t = []) : lastAt h t = none := by
  induction t with
  | nil => rfl
  | cons p rest ih =>
    obtain ⟨a, w⟩ := p
    by_cases ha : a = h
    · rw [rowsAt, if_pos ha] at hr
      simp at hr
    · rw [rowsAt, if_neg ha] at hr
      rw [lastAt, ih hr, if_neg ha]

theorem lastAt_of_rowsAt_single {h b : Nat} {t : List (Nat × Nat)}
    (hr : rowsAt h t = [b]) : lastAt h t = some b := by
  induction t with
  | nil => simp [rowsAt] at hr
  | cons p rest ih =>
    obtain ⟨a, w⟩ := p
    by_cases ha : a = h
    · rw [rowsAt, if_pos ha] at hr
      rw [List.cons.injEq] at hr
      obtain ⟨hw, hrest⟩ := hr
      rw [lastAt, lastAt_of_rowsAt_nil hrest, if_pos ha, hw]
    · rw [rowsAt, if_neg ha] at hr
      rw [lastAt, ih hr]

theorem tlookup_isSome_of_rowsAt {h b : Nat} {t : List (Nat × Nat)}
    (hr : rowsAt h t = [b]) : (tlookup t h).isSome := by
  induction t with
  | nil => simp [rowsAt] at hr
  | cons p rest ih =>
    obtain ⟨a, w⟩ := p
    by_cases ha : a = h
    · subst ha
      rw [tlookup, if_pos rfl]
      simp
    · rw [rowsAt, if_neg ha] at hr
      rw [tlookup, if_neg (fun he => ha he.symm)]
      exact ih hr

/-! ## Tx graph write/read helper lemmas -/

/-- `write_tx_graph` never touches an anchor row whose key is already
present, regardless of where (or whether) the write fails. -/
theorem write_tx_graph_anchor_preserve (g : TxGraphCS) (s : DB)
    {key : Nat × Nat × Nat} {c0 : Int} (hA : tlookup s.anchor key = some c0) :
    tlookup ((write_tx_graph g s).1).anchor key = some c0 := by
  simp only [write_tx_graph]
  cases h1 : writeTxPart g s.tx with
  | mk t e1 =>
    cases e1 with
    | some e => exact hA
    | none =>
      cases h2 : writeTxoutsT g.txouts s.txout with
      | mk o e2 =>
        cases e2 with
        | some e => exact hA
        | none =>
          cases h3 : writeAnchorsT g.anchors s.anchor with
          | mk a e3 =>
            have hp := foldInsIgnC_preserve i64OfU64
              (g.anchors.map fun p => (anchorKey p, p.1.confirmation_time)) s.anchor hA
            rw [writeAnchorsT] at h3
            rw [h3] at hp
            exact hp

/-- `write_keychain_txout` never touches a script-cache row whose key is
already present. -/
theorem write_keychain_txout_spk_preserve (kc : KeychainTxoutCS) (s : DB)
    {sk : Nat × Nat} {scr : Bytes} (hS : tlookup s.spkCache sk = some scr) :
    tlookup (write_keychain_txout kc s).spkCache sk = some scr := by
  simp only [write_keychain_txout]
  exact foldInsIgnC_preserve _ (flattenSpk kc.spk_cache) s.spkCache hS

/-- A stored output row with a negative satoshi value makes the txout read
loop fail, whatever the accumulator. -/
theorem readTxoutRows_neg {rows : List ((Nat × Nat) × TxoutRow)} {k : Nat × Nat}
    {r : TxoutRow} (hm : (k, r) ∈ rows) (hneg : r.value < 0) :
    ∀ acc g, readTxoutRows rows acc ≠ Except.ok g := by
  induction rows with
  | nil => simp at hm
  | cons p rest ih =>
    obtain ⟨k2, r2⟩ := p
    intro acc g
    simp only [readTxoutRows]
    cases hc : u64OfI64 r2.value with
    | error e => simp
    | ok v =>
      rcases List.mem_cons.mp hm with hhead | htail
      · obtain ⟨hk, hr⟩ := Prod.ext_iff.mp hhead
        simp only at hk hr
        subst hr
        rw [u64OfI64, if_neg (by exact fun hle => absurd hneg (by omega))] at hc
        simp at hc
      · exact ih htail _ _

/-- Reading the tx rows accumulates monotonically: successful reads keep
everything already in the accumulator and add an entry in all four
collections for every row. -/
theorem readTxRows_ok_props (rows : List (Nat × TxRow)) (acc g : TxGraphCS)
    (h : readTxRows rows acc = Except.ok g) :
    (∀ x, x ∈ acc.txs → x ∈ g.txs) ∧
    (∀ k, (tlookup acc.first_seen k).isSome → (tlookup g.first_seen k).isSome) ∧
    (∀ k, (tlookup acc.last_seen k).isSome → (tlookup g.last_seen k).isSome) ∧
    (∀ k, (tlookup acc.last_evicted k).isSome → (tlookup g.last_evicted k).isSome) ∧
    (∀ p, p ∈ rows →
      (tlookup g.first_seen p.1).isSome ∧
      (tlookup g.last_seen p.1).isSome ∧
      (tlookup g.last_evicted p.1).isSome ∧
      ∃ tx, deserializeTx (getBlob p.2.tx) = Except.ok tx ∧ tx ∈ g.txs) := by
  induction rows generalizing acc with
  | nil =>
    simp only [readTxRows, Except.ok.injEq] at h
    subst h
    exact ⟨fun x hx => hx, fun k hk => hk, fun k hk => hk, fun k hk => hk,
      fun p hp => absurd hp (List.not_mem_nil p)⟩
  | cons p rest ih =>
    obtain ⟨txid, r⟩ := p
    simp only [readTxRows] at h
    cases hd : deserializeTx (getBlob r.tx) with
    | error e => rw [hd] at h; simp at h
    | ok tx =>
      rw [hd] at h
      cases hf : u64OfI64 (getI64 r.first_seen) with
      | error e => rw [hf] at h; simp at h
      | ok fs =>
        rw [hf] at h
        cases hl : u64OfI64 (getI64 r.last_seen) with
        | error e => rw [hl] at h; simp at h
        | ok ls =>
          rw [hl] at h
          cases hv : u64OfI64 (getI64 r.last_evicted) with
          | error e => rw [hv] at h; simp at h
          | ok lev =>
            rw [hv] at h
            obtain ⟨htxs, hfs, hls, hle, hrows⟩ := ih _ h
            refine ⟨?_, ?_, ?_, ?_, ?_⟩
            · intro x hx
              exact htxs x (mem_setInsert_of_mem tx _ hx)
            · intro k hk
              exact hfs k (tlookup_updIns_isSome txid k _ _ _ hk)
            · intro k hk
              exact hls k (tlookup_updIns_isSome txid k _ _ _ hk)
            · intro k hk
              exact hle k (tlookup_updIns_isSome txid k _ _ _ hk)
            · intro q hq
              rcases List.mem_cons.mp hq with hhead | htail
              · subst hhead
                refine ⟨?_, ?_, ?_, tx, hd, ?_⟩
                · refine hfs txid ?_
                  show (tlookup (mapInsert txid fs acc.first_seen) txid).isSome
                  rw [mapInsert, tlookup_updIns_self]
                  simp
                · refine hls txid ?_
                  show (tlookup (mapInsert txid ls acc.last_seen) txid).isSome
                  rw [mapInsert, tlookup_updIns_self]
                  simp
                · refine hle txid ?_
                  show (tlookup (mapInsert txid lev acc.last_evicted) txid).isSome
                  rw [mapInsert, tlookup_updIns_self]
                  simp
                · exact htxs tx (mem_setInsert_self tx _)
              · exact hrows q htail

/-- The txout row read loop only changes the `txouts` collection. -/
theorem readTxoutRows_ok_fields (rows : List ((Nat × Nat) × TxoutRow)) (acc g : TxGraphCS)
    (h : readTxoutRows rows acc = Except.ok g) :
    g.txs = acc.txs ∧ g.first_seen = acc.first_seen ∧
    g.last_seen = acc.last_seen ∧ g.last_evicted = acc.last_evicted ∧
    g.anchors = acc.anchors := by
  induction rows generalizing acc with
  | nil =>
    simp only [readTxoutRows, Except.ok.injEq] at h
    subst h
    exact ⟨rfl, rfl, rfl, rfl, rfl⟩
  | cons p rest ih =>
    obtain ⟨op, r⟩ := p
    simp only [readTxoutRows] at h
    cases hc : u64OfI64 r.value with
    | error e => rw [hc] at h; simp at h
    | ok v =>
      rw [hc] at h
      exact ih { acc with txouts := mapInsert op ⟨v, r.script⟩ acc.txouts } h

/-- The anchor row read loop only changes the `anchors` collection. -/
theorem readAnchorRows_ok_fields (rows : List ((Nat × Nat × Nat) × Int)) (acc g : TxGraphCS)
    (h : readAnchorRows rows acc = Except.ok g) :
    g.txs = acc.txs ∧ g.first_seen = acc.first_seen ∧
    g.last_seen = acc.last_seen ∧ g.last_evicted = acc.last_evicted ∧
    g.txouts = acc.txouts := by
  induction rows generalizing acc with
  | nil =>
    simp only [readAnchorRows, Except.ok.injEq] at h
    subst h
    exact ⟨rfl, rfl, rfl, rfl, rfl⟩
  | cons p rest ih =>
    obtain ⟨⟨hh, hb, txid⟩, confT⟩ := p
    simp only [readAnchorRows] at h
    cases hc : u64OfI64 confT with
    | error e => rw [hc] at h; simp at h
    | ok ct =>
      rw [hc] at h
      exact ih { acc with anchors := setInsert (⟨hh, hb, ct⟩, txid) acc.anchors } h

/-- The snapshot chain map at a height is decided by the last `block` row
of that height. -/
theorem readBlockRows_lookup (rows : List (Nat × Nat)) (acc : List (Nat × Option Nat))
    (h : Nat) :
    tlookup (readBlockRows rows acc) h =
      match lastAt h rows with
      | some v => some (some v)
      | none => tlookup acc h := by
  induction rows generalizing acc with
  | nil => rfl
  | cons p rest ih =>
    obtain ⟨h2, v⟩ := p
    simp only [readBlockRows, lastAt]
    rw [ih]
    cases hres : lastAt h rest with
    | some w => rfl
    | none =>
      by_cases hh : h = h2
      · subst hh
        rw [mapInsert, tlookup_updIns_self]
        cases tlookup acc h <;> simp
      · rw [mapInsert, tlookup_updIns_ne hh]
        simp [if_neg (fun he => hh (Eq.symm he))]

theorem writeLCT_rowsAt_not_mem {h : Nat} (d : List (Nat × Option Nat))
    (t : List (Nat × Nat)) (hnm : h ∉ keysOf d) :
    rowsAt h (writeLCT d t) = rowsAt h t := by
  induction d generalizing t with
  | nil => rfl
  | cons p rest ih =>
    obtain ⟨h2, o⟩ := p
    have hne : h2 ≠ h := by
      intro he
      exact hnm (by rw [keysOf, List.map_cons, he]; exact List.mem_cons_self _ _)
    have hrest : h ∉ keysOf rest := by
      intro hm
      exact hnm (by rw [keysOf, List.map_cons]; exact List.mem_cons_of_mem _ hm)
    cases o with
    | some hb =>
      by_cases hs : (tlookup t h2).isSome
      · simp only [writeLCT, if_pos hs]
        exact ih _ hrest
      · simp only [writeLCT, if_neg hs]
        rw [ih _ hrest, rowsAt_append_ne h h2 hne]
    | none =>
      simp only [writeLCT]
      rw [ih _ hrest, rowsAt_delHeight_ne h h2 (fun he => hne he.symm)]

/-- Retraction: a delta entry mapping a height to None leaves no `block`
row of that height behind. -/
theorem writeLCT_rowsAt_none {h : Nat} (d : List (Nat × Option Nat))
    (t : List (Nat × Nat)) (hnd : nodupKeys d) (hm : (h, none) ∈ d) :
    rowsAt h (writeLCT d t) = [] := by
  induction d generalizing t with
  | nil => simp at hm
  | cons p rest ih =>
    obtain ⟨h2, o⟩ := p
    rw [nodupKeys, keysOf, List.map_cons, List.nodup_cons] at hnd
    obtain ⟨hk2, hndrest⟩ := hnd
    rcases List.mem_cons.mp hm with hhead | htail
    · obtain ⟨h1, h2eq⟩ := Prod.ext_iff.mp hhead
      simp only at h1 h2eq
      subst h1
      rw [← h2eq]
      simp only [writeLCT]
      rw [writeLCT_rowsAt_not_mem rest _ (fun hmem => hk2 hmem), rowsAt_delHeight_self]
    · cases o with
      | some hb =>
        by_cases hs : (tlookup t h2).isSome
        · simp only [writeLCT, if_pos hs]
          exact ih _ hndrest htail
        · simp only [writeLCT, if_neg hs]
          exact ih _ hndrest htail
      | none =>
        simp only [writeLCT]
        exact ih _ hndrest htail

/-- First write wins: the hash-present arm skips every height that already
has a row, so the rows at such a height never change. -/
theorem writeLCT_rowsAt_present {h b : Nat} (d : List (Nat × Option Nat))
    (t : List (Nat × Nat)) (hnd : nodupKeys d) (hm : (h, some b) ∈ d)
    (hs : (tlookup t h).isSome) :
    rowsAt h (writeLCT d t) = rowsAt h t := by
  induction d generalizing t with
  | nil => simp at hm
  | cons p rest ih =>
    obtain ⟨h2, o⟩ := p
    rw [nodupKeys, keysOf, List.map_cons, List.nodup_cons] at hnd
    obtain ⟨hk2, hndrest⟩ := hnd
    rcases List.mem_cons.mp hm with hhead | htail
    · obtain ⟨h1, h2eq⟩ := Prod.ext_iff.mp hhead
      simp only at h1 h2eq
      subst h1
      rw [← h2eq]
      simp only [writeLCT, if_pos hs]
      exact writeLCT_rowsAt_not_mem rest _ (fun hmem => hk2 hmem)
    · have hne : h ≠ h2 := by
        intro he
        subst he
        exact hk2 (List.mem_map.mpr ⟨(h, some b), htail, rfl⟩)
      cases o with
      | some hb =>
        by_cases hs2 : (tlookup t h2).isSome
        · simp only [writeLCT, if_pos hs2]
          exact ih _ hndrest htail hs
        · simp only [writeLCT, if_neg hs2]
          rw [ih _ hndrest htail, rowsAt_append_ne h h2 (fun he => hne he.symm)]
          obtain ⟨v, hv⟩ := Option.isSome_iff_exists.mp hs
          rw [tlookup_append, hv]
          simp
      | none =>
        simp only [writeLCT]
        rw [ih _ hndrest htail, rowsAt_delHeight_ne h h2 hne]
        rw [tlookup_delHeight_ne h h2 hne]
        exact hs

/-- From a table with no row at a height, a delta entry with a known hash
for that height lays down exactly one row. -/
theorem writeLCT_rowsAt_fresh {h b : Nat} (d : List (Nat × Option Nat))
    (t : List (Nat × Nat)) (hnd : nodupKeys d) (hm : (h, some b) ∈ d)
    (hn : tlookup t h = none) (hr : rowsAt h t = []) :
    rowsAt h (writeLCT d t) = [b] := by
  induction d generalizing t with
  | nil => simp at hm
  | cons p rest ih =>
    obtain ⟨h2, o⟩ := p
    rw [nodupKeys, keysOf, List.map_cons, List.nodup_cons] at hnd
    obtain ⟨hk2, hndrest⟩ := hnd
    rcases List.mem_cons.mp hm with hhead | htail
    · obtain ⟨h1, h2eq⟩ := Prod.ext_iff.mp hhead
      simp only at h1 h2eq
      subst h1
      have hb' : o = some b := h2eq.symm
      subst hb'
      have hns : ¬ (tlookup t h).isSome := by
        rw [hn]
        simp
      simp only [writeLCT, if_neg hns]
      rw [writeLCT_rowsAt_not_mem rest _ (fun hmem => hk2 hmem), rowsAt_append_self, hr]
      simp
    · have hne : h ≠ h2 := by
        intro he
        subst he
        exact hk2 (List.mem_map.mpr ⟨(h, some b), htail, rfl⟩)
      cases o with
      | some hb =>
        by_cases hs2 : (tlookup t h2).isSome
        · simp only [writeLCT, if_pos hs2]
          exact ih _ hndrest htail hn hr
        · simp only [writeLCT, if_neg hs2]
          refine ih _ hndrest htail ?_ ?_
          · rw [tlookup_append, hn]
            simp [tlookup, hne]
          · rw [rowsAt_append_ne h h2 (fun he => hne he.symm)]
            exact hr
      | none =>
        simp only [writeLCT]
        refine ih _ hndrest htail ?_ ?_
        · rw [tlookup_delHeight_ne h h2 hne]
          exact hn
        · rw [rowsAt_delHeight_ne h h2 hne]
          exact hr

/-! ## Pure write forms and idempotence lemmas -/

theorem foldUpd_lookup_mem_proj {K V A B : Type} [DecidableEq K] (u : A → V → V)
    (i : A → V) (f : A → B) (π : V → B)
    (hu : ∀ a v, π (u a v) = f a) (hi : ∀ a, π (i a) = f a)
    (d : List (K × A)) (t : List (K × V)) {k : K} {a : A}
    (hnd : nodupKeys d) (hm : (k, a) ∈ d) :
    ∃ r, tlookup (foldUpd u i d t) k = some r ∧ π r = f a := by
  have h := foldUpd_lookup_mem u i d t hnd hm
  cases htl : tlookup t k with
  | some v =>
    rw [htl] at h
    exact ⟨u a v, h, hu a v⟩
  | none =>
    rw [htl] at h
    exact ⟨i a, h, hi a⟩

theorem updFS_self {r : TxRow} {i : Int} (h : r.first_seen = some i) : updFS i r = r := by
  cases r
  simp only [updFS]
  simp only at h
  rw [h]

theorem updLS_self {r : TxRow} {i : Int} (h : r.last_seen = some i) : updLS i r = r := by
  cases r
  simp only [updLS]
  simp only at h
  rw [h]

theorem updLE_self {r : TxRow} {i : Int} (h : r.last_evicted = some i) : updLE i r = r := by
  cases r
  simp only [updLE]
  simp only at h
  rw [h]

/-- When every numeric value fits a signed 64-bit integer, `write_tx_graph`
succeeds and is the composition of the pure per-collection folds. -/
theorem write_tx_graph_total (g : TxGraphCS) (s : DB)
    (hf : ∀ p, p ∈ g.first_seen → p.2 < 2 ^ 63)
    (hl : ∀ p, p ∈ g.last_seen → p.2 < 2 ^ 63)
    (he : ∀ p, p ∈ g.last_evicted → p.2 < 2 ^ 63)
    (ho : ∀ p, p ∈ g.txouts → p.2.value < 2 ^ 63)
    (ha : ∀ p, p ∈ g.anchors → p.1.confirmation_time < 2 ^ 63) :
    write_tx_graph g s =
      ({ s with
          tx := tsFoldP updLE insLE g.last_evicted
            (tsFoldP updLS insLS g.last_seen
              (tsFoldP updFS insFS g.first_seen (writeTxsT g.txs s.tx))),
          txout := txoutFoldP g.txouts s.txout,
          anchor := anchorFoldP g.anchors s.anchor }, none) := by
  have hfs := foldUpdC_ok i64OfU64 (fun a => Int.ofNat a) updFS insFS g.first_seen
    (writeTxsT g.txs s.tx) (fun p hp => by rw [i64OfU64, if_pos (hf p hp)])
  have hls := foldUpdC_ok i64OfU64 (fun a => Int.ofNat a) updLS insLS g.last_seen
    (tsFoldP updFS insFS g.first_seen (writeTxsT g.txs s.tx))
    (fun p hp => by rw [i64OfU64, if_pos (hl p hp)])
  have hle := foldUpdC_ok i64OfU64 (fun a => Int.ofNat a) updLE insLE g.last_evicted
    (tsFoldP updLS insLS g.last_seen (tsFoldP updFS insFS g.first_seen (writeTxsT g.txs s.tx)))
    (fun p hp => by rw [i64OfU64, if_pos (he p hp)])
  have hox := foldUpdC_ok convTxout (fun a => (⟨Int.ofNat a.value, a.script⟩ : TxoutRow))
    (fun r _ => r) (fun r => r) g.txouts s.txout
    (fun p hp => by rw [convTxout, i64OfU64, if_pos (ho p hp)])
  have hanc := foldInsIgnC_ok i64OfU64 (fun a => Int.ofNat a)
    (g.anchors.map fun p => (anchorKey p, p.1.confirmation_time)) s.anchor
    (fun q hq => by
      obtain ⟨p, hp, hpe⟩ := List.mem_map.mp hq
      rw [← hpe]
      rw [i64OfU64, if_pos (ha p hp)])
  simp only [write_tx_graph, writeTxPart, writeTsT, writeTxoutsT, writeAnchorsT, tsFoldP] at *
  simp only [hfs, hls, hle, hox, hanc]
  simp only [txoutFoldP, anchorFoldP, List.map_map]
  rfl

/-- On a changeset restricted to the three timestamp maps, the output map
and the last-revealed map, with all values in signed 64-bit range,
`write_changeset` is the composition of the pure upsert folds. -/
theorem write_changeset_restricted (c : ChangeSet) (s0 : DB)
    (hnet : c.network = none) (hd : c.descriptor = none) (hcd : c.change_descriptor = none)
    (hlc : c.local_chain.blocks = []) (htxs : c.tx_graph.txs = [])
    (hanc : c.tx_graph.anchors = []) (hspk : c.indexer.spk_cache = [])
    (hf : ∀ p, p ∈ c.tx_graph.first_seen → p.2 < 2 ^ 63)
    (hl : ∀ p, p ∈ c.tx_graph.last_seen → p.2 < 2 ^ 63)
    (he : ∀ p, p ∈ c.tx_graph.last_evicted → p.2 < 2 ^ 63)
    (ho : ∀ p, p ∈ c.tx_graph.txouts → p.2.value < 2 ^ 63) :
    write_changeset c s0 =
      { s0 with
          tx := tsFoldP updLE insLE c.tx_graph.last_evicted
            (tsFoldP updLS insLS c.tx_graph.last_seen
              (tsFoldP updFS insFS c.tx_graph.first_seen s0.tx)),
          txout := txoutFoldP c.tx_graph.txouts s0.txout,
          lastRevealed := foldUpd (fun (v : Nat) _ => v) (fun v => v)
            c.indexer.last_revealed s0.lastRevealed } := by
  have htg := write_tx_graph_total c.tx_graph
    { s0 with block := writeLCT c.local_chain.blocks s0.block } hf hl he ho
    (by rw [hanc]; intro p hp; simp at hp)
  simp only [write_changeset, hnet, hd, hcd, write_local_chain, hlc, writeLCT] at htg ⊢
  rw [htg]
  simp only [write_keychain_txout, hspk, flattenSpk, foldInsIgnC, htxs, writeTxsT,
    List.map_nil, foldUpd, hanc, anchorFoldP, foldInsIgn]

/-! ## Round-trip lemmas: write side -/

theorem tlookup_isSome_iff_mem_keys {K V : Type} [DecidableEq K] (t : List (K × V)) (k : K) :
    (tlookup t k).isSome ↔ k ∈ keysOf t := by
  rw [← Option.ne_none_iff_isSome]
  constructor
  · intro hne
    by_contra hnm
    exact hne ((tlookup_eq_none_iff t k).mpr hnm)
  · intro hm hnone
    exact (tlookup_eq_none_iff t k).mp hnone hm

theorem mem_updIns_of_nodup {K V : Type} [DecidableEq K] {k : K} (u : V → V) (i : V)
    {t : List (K × V)} (hnd : nodupKeys t) {v0 : V} (hv0 : tlookup t k = some v0) :
    ∀ q, q ∈ updIns k u i t → (q ∈ t ∧ q.1 ≠ k) ∨ q = (k, u v0) := by
  induction t with
  | nil => simp [tlookup] at hv0
  | cons p rest ih =>
    obtain ⟨a, w⟩ := p
    rw [nodupKeys, keysOf, List.map_cons, List.nodup_cons] at hnd
    obtain ⟨ha, hndrest⟩ := hnd
    by_cases hk : k = a
    · subst hk
      rw [tlookup, if_pos rfl, Option.some.injEq] at hv0
      subst hv0
      intro q hq
      rw [updIns, if_pos rfl] at hq
      rcases List.mem_cons.mp hq with hhead | htail
      · exact Or.inr hhead
      · refine Or.inl ⟨List.mem_cons_of_mem _ htail, ?_⟩
        intro he
        exact ha (he ▸ List.mem_map.mpr ⟨q, htail, rfl⟩)
    · rw [tlookup, if_neg hk] at hv0
      intro q hq
      rw [updIns, if_neg hk] at hq
      rcases List.mem_cons.mp hq with hhead | htail
      · subst hhead
        exact Or.inl ⟨List.mem_cons_self _ _, fun he => hk he.symm⟩
      · rcases ih hndrest hv0 q htail with ⟨hm, hne⟩ | heq
        · exact Or.inl ⟨List.mem_cons_of_mem _ hm, hne⟩
        · exact Or.inr heq

/-- A write fold whose keys are all already present keeps the key set, the
nodup invariant and any row invariant closed under the update. -/
theorem foldUpd_present_invariant {K V A : Type} [DecidableEq K] (u : A → V → V)
    (i : A → V) (P : K → V → Prop) (d : List (K × A)) (t : List (K × V))
    (hnd : nodupKeys t)
    (hpres : ∀ p, p ∈ d → (tlookup t p.1).isSome)
    (hrows : ∀ q, q ∈ t → P q.1 q.2)
    (hupd : ∀ a k v, P k v → P k (u a v)) :
    nodupKeys (foldUpd u i d t) ∧ (∀ q, q ∈ foldUpd u i d t → P q.1 q.2) ∧
    keysOf (foldUpd u i d t) = keysOf t := by
  induction d generalizing t with
  | nil => exact ⟨hnd, hrows, rfl⟩
  | cons p rest ih =>
    obtain ⟨k, a⟩ := p
    simp only [foldUpd]
    have hs : (tlookup t k).isSome := hpres (k, a) (List.mem_cons_self _ _)
    obtain ⟨v0, hv0⟩ := Option.isSome_iff_exists.mp hs
    have hkeys : keysOf (updIns k (u a) (i a) t) = keysOf t := by
      rw [keysOf_updIns, if_pos hs]
    have hnd2 : nodupKeys (updIns k (u a) (i a) t) := updIns_nodupKeys k (u a) (i a) t hnd
    have hrows2 : ∀ q, q ∈ updIns k (u a) (i a) t → P q.1 q.2 := by
      intro q hq
      rcases mem_updIns_of_nodup (u a) (i a) hnd hv0 q hq with ⟨hm, _⟩ | heq
      · exact hrows q hm
      · rw [heq]
        exact hupd a k v0 (hrows (k, v0) (mem_of_tlookup hv0))
    have hpres2 : ∀ p, p ∈ rest → (tlookup (updIns k (u a) (i a) t) p.1).isSome := by
      intro p hp
      rw [tlookup_isSome_iff_mem_keys, hkeys, ← tlookup_isSome_iff_mem_keys]
      exact hpres p (List.mem_cons_of_mem _ hp)
    obtain ⟨h1, h2, h3⟩ := ih _ hnd2 hpres2 hrows2
    exact ⟨h1, h2, by rw [h3, hkeys]⟩

theorem foldInsIgnC_okId {K B : Type} [DecidableEq K] (d : List (K × B))
    (t : List (K × B)) :
    foldInsIgnC (fun b => Except.ok b) d t = (foldInsIgn d t, none) := by
  induction d generalizing t with
  | nil => rfl
  | cons p rest ih =>
    obtain ⟨k, b⟩ := p
    simp only [foldInsIgnC, foldInsIgn]
    exact ih _

/-! ## Round-trip lemmas: read side -/

theorem readDescAux_descRows (d cd : Option Nat) :
    ∃ m, readDescAux (descRows d cd) [] = Except.ok m ∧
      tlookup m 0 = d ∧ tlookup m 1 = cd := by
  rcases d with _ | x <;> rcases cd with _ | y
  · exact ⟨[], rfl, rfl, rfl⟩
  · exact ⟨[(1, y)], rfl, rfl, rfl⟩
  · exact ⟨[(0, x)], rfl, rfl, rfl⟩
  · exact ⟨[(0, x), (1, y)], rfl, rfl, rfl⟩

/-- Successful exact read of the tx rows: every decodable row is read back
with its three timestamps and its transaction. -/
theorem readTxRows_exact (rows : List (Nat × TxRow)) (acc : TxGraphCS)
    (hnd : nodupKeys rows)
    (hdec : ∀ q, q ∈ rows → (∃ x, q.2.tx = some [x]) ∧
      0 ≤ getI64 q.2.first_seen ∧ 0 ≤ getI64 q.2.last_seen ∧ 0 ≤ getI64 q.2.last_evicted) :
    ∃ g, readTxRows rows acc = Except.ok g ∧
      (∀ x, x ∈ acc.txs → x ∈ g.txs) ∧
      (∀ k, k ∉ keysOf rows → tlookup g.first_seen k = tlookup acc.first_seen k) ∧
      (∀ k, k ∉ keysOf rows → tlookup g.last_seen k = tlookup acc.last_seen k) ∧
      (∀ k, k ∉ keysOf rows → tlookup g.last_evicted k = tlookup acc.last_evicted k) ∧
      (g.txouts = acc.txouts ∧ g.anchors = acc.anchors) ∧
      (∀ q, q ∈ rows →
        tlookup g.first_seen q.1 = some (getI64 q.2.first_seen).toNat ∧
        tlookup g.last_seen q.1 = some (getI64 q.2.last_seen).toNat ∧
        tlookup g.last_evicted q.1 = some (getI64 q.2.last_evicted).toNat ∧
        ∀ x, q.2.tx = some [x] → x ∈ g.txs) := by
  induction rows generalizing acc with
  | nil =>
    exact ⟨acc, rfl, fun x hx => hx, fun k _ => rfl, fun k _ => rfl, fun k _ => rfl,
      ⟨rfl, rfl⟩, fun q hq => absurd hq (List.not_mem_nil q)⟩
  | cons p rest ih =>
    obtain ⟨k, r⟩ := p
    rw [nodupKeys, keysOf, List.map_cons, List.nodup_cons] at hnd
    obtain ⟨hknotin, hndrest⟩ := hnd
    obtain ⟨⟨x, hx⟩, h0f, h0l, h0e⟩ := hdec (k, r) (List.mem_cons_self _ _)
    have hdes : deserializeTx (getBlob r.tx) = Except.ok x := by
      rw [hx]
      rfl
    have hcf : u64OfI64 (getI64 r.first_seen) = Except.ok (getI64 r.first_seen).toNat := by
      rw [u64OfI64, if_pos h0f]
    have hcl : u64OfI64 (getI64 r.last_seen) = Except.ok (getI64 r.last_seen).toNat := by
      rw [u64OfI64, if_pos h0l]
    have hce : u64OfI64 (getI64 r.last_evicted) = Except.ok (getI64 r.last_evicted).toNat := by
      rw [u64OfI64, if_pos h0e]
    obtain ⟨g, hg, hmono, hpf, hpl, hpe, ⟨hto, han⟩, hrows⟩ :=
      ih { acc with
            txs := setInsert x acc.txs,
            first_seen := mapInsert k (getI64 r.first_seen).toNat acc.first_seen,
            last_seen := mapInsert k (getI64 r.last_seen).toNat acc.last_seen,
            last_evicted := mapInsert k (getI64 r.last_evicted).toNat acc.last_evicted }
        hndrest (fun q hq => hdec q (List.mem_cons_of_mem _ hq))
    refine ⟨g, ?_, ?_, ?_, ?_, ?_, ⟨hto, han⟩, ?_⟩
    · simp only [readTxRows, hdes, hcf, hcl, hce]
      exact hg
    · intro y hy
      exact hmono y (mem_setInsert_of_mem x _ hy)
    · intro k2 hk2
      have hne : k2 ≠ k := fun he => hk2 (by rw [keysOf, List.map_cons, he]; exact List.mem_cons_self _ _)
      have hrest : k2 ∉ keysOf rest := fun hm => hk2 (by rw [keysOf, List.map_cons]; exact List.mem_cons_of_mem _ hm)
      rw [hpf k2 hrest]
      show tlookup (mapInsert k _ acc.first_seen) k2 = tlookup acc.first_seen k2
      rw [mapInsert, tlookup_updIns_ne hne]
    · intro k2 hk2
      have hne : k2 ≠ k := fun he => hk2 (by rw [keysOf, List.map_cons, he]; exact List.mem_cons_self _ _)
      have hrest : k2 ∉ keysOf rest := fun hm => hk2 (by rw [keysOf, List.map_cons]; exact List.mem_cons_of_mem _ hm)
      rw [hpl k2 hrest]
      show tlookup (mapInsert k _ acc.last_seen) k2 = tlookup acc.last_seen k2
      rw [mapInsert, tlookup_updIns_ne hne]
    · intro k2 hk2
      have hne : k2 ≠ k := fun he => hk2 (by rw [keysOf, List.map_cons, he]; exact List.mem_cons_self _ _)
      have hrest : k2 ∉ keysOf rest := fun hm => hk2 (by rw [keysOf, List.map_cons]; exact List.mem_cons_of_mem _ hm)
      rw [hpe k2 hrest]
      show tlookup (mapInsert k _ acc.last_evicted) k2 = tlookup acc.last_evicted k2
      rw [mapInsert, tlookup_updIns_ne hne]
    · intro q hq
      rcases List.mem_cons.mp hq with hhead | htail
      · subst hhead
        refine ⟨?_, ?_, ?_, ?_⟩
        · rw [hpf k hknotin]
          show tlookup (mapInsert k _ acc.first_seen) k = _
          rw [mapInsert, tlookup_updIns_self]
          cases tlookup acc.first_seen k <;> rfl
        · rw [hpl k hknotin]
          show tlookup (mapInsert k _ acc.last_seen) k = _
          rw [mapInsert, tlookup_updIns_self]
          cases tlookup acc.last_seen k <;> rfl
        · rw [hpe k hknotin]
          show tlookup (mapInsert k _ acc.last_evicted) k = _
          rw [mapInsert, tlookup_updIns_self]
          cases tlookup acc.last_evicted k <;> rfl
        · intro y hy
          rw [hx, Option.some.injEq, List.cons.injEq] at hy
          obtain ⟨hxy, _⟩ := hy
          subst hxy
          exact hmono x (mem_setInsert_self x _)
      · exact hrows q htail

/-- Successful exact read of the txout rows. -/
theorem readTxoutRows_exact (rows : List ((Nat × Nat) × TxoutRow)) (acc : TxGraphCS)
    (hnd : nodupKeys rows) (hdec : ∀ q, q ∈ rows → 0 ≤ q.2.value) :
    ∃ g, readTxoutRows rows acc = Except.ok g ∧
      (g.txs = acc.txs ∧ g.first_seen = acc.first_seen ∧ g.last_seen = acc.last_seen ∧
        g.last_evicted = acc.last_evicted ∧ g.anchors = acc.anchors) ∧
      (∀ k2, k2 ∉ keysOf rows → tlookup g.txouts k2 = tlookup acc.txouts k2) ∧
      (∀ q, q ∈ rows → tlookup g.txouts q.1 = some ⟨q.2.value.toNat, q.2.script⟩) := by
  induction rows generalizing acc with
  | nil =>
    exact ⟨acc, rfl, ⟨rfl, rfl, rfl, rfl, rfl⟩, fun k2 _ => rfl,
      fun q hq => absurd hq (List.not_mem_nil q)⟩
  | cons p rest ih =>
    obtain ⟨k, r⟩ := p
    rw [nodupKeys, keysOf, List.map_cons, List.nodup_cons] at hnd
    obtain ⟨hknotin, hndrest⟩ := hnd
    have h0 : 0 ≤ r.value := hdec (k, r) (List.mem_cons_self _ _)
    have hc : u64OfI64 r.value = Except.ok r.value.toNat := by
      rw [u64OfI64, if_pos h0]
    obtain ⟨g, hg, hfields, hpres, hrows⟩ :=
      ih { acc with txouts := mapInsert k ⟨r.value.toNat, r.script⟩ acc.txouts }
        hndrest (fun q hq => hdec q (List.mem_cons_of_mem _ hq))
    refine ⟨g, ?_, hfields, ?_, ?_⟩
    · simp only [readTxoutRows, hc]
      exact hg
    · intro k2 hk2
      have hne : k2 ≠ k := fun he => hk2 (by rw [keysOf, List.map_cons, he]; exact List.mem_cons_self _ _)
      have hrest : k2 ∉ keysOf rest := fun hm => hk2 (by rw [keysOf, List.map_cons]; exact List.mem_cons_of_mem _ hm)
      rw [hpres k2 hrest]
      show tlookup (mapInsert k _ acc.txouts) k2 = tlookup acc.txouts k2
      rw [mapInsert, tlookup_updIns_ne hne]
    · intro q hq
      rcases List.mem_cons.mp hq with hhead | htail
      · subst hhead
        rw [hpres k hknotin]
        show tlookup (mapInsert k _ acc.txouts) k = _
        rw [mapInsert, tlookup_updIns_self]
        cases tlookup acc.txouts k <;> rfl
      · exact hrows q htail

/-- Successful exact read of the anchor rows. -/
theorem readAnchorRows_exact (rows : List ((Nat × Nat × Nat) × Int)) (acc : TxGraphCS)
    (hdec : ∀ q, q ∈ rows → 0 ≤ q.2) :
    ∃ g, readAnchorRows rows acc = Except.ok g ∧
      (g.txs = acc.txs ∧ g.first_seen = acc.first_seen ∧ g.last_seen = acc.last_seen ∧
        g.last_evicted = acc.last_evicted ∧ g.txouts = acc.txouts) ∧
      (∀ x, x ∈ acc.anchors → x ∈ g.anchors) ∧
      (∀ q, q ∈ rows → ((⟨q.1.1, q.1.2.1, q.2.toNat⟩ : AnchorT), q.1.2.2) ∈ g.anchors) := by
  induction rows generalizing acc with
  | nil =>
    exact ⟨acc, rfl, ⟨rfl, rfl, rfl, rfl, rfl⟩, fun x hx => hx,
      fun q hq => absurd hq (List.not_mem_nil q)⟩
  | cons p rest ih =>
    obtain ⟨⟨hh, hb, txid⟩, confT⟩ := p
    have h0 : (0 : Int) ≤ confT := hdec ((hh, hb, txid), confT) (List.mem_cons_self _ _)
    have hc : u64OfI64 confT = Except.ok confT.toNat := by
      rw [u64OfI64, if_pos h0]
    obtain ⟨g, hg, hfields, hmono, hrows⟩ :=
      ih { acc with anchors := setInsert (⟨hh, hb, confT.toNat⟩, txid) acc.anchors }
        (fun q hq => hdec q (List.mem_cons_of_mem _ hq))
    refine ⟨g, ?_, hfields, ?_, ?_⟩
    · simp only [readAnchorRows, hc]
      exact hg
    · intro x hx
      exact hmono x (mem_setInsert_of_mem _ _ hx)
    · intro q hq
      rcases List.mem_cons.mp hq with hhead | htail
      · subst hhead
        exact hmono _ (mem_setInsert_self _ _)
      · exact hrows q htail

/-- Flattening the nested script-cache delta preserves membership. -/
theorem mem_flattenSpk {spk : List (Nat × List (Nat × Bytes))} {dd : Nat}
    {inner : List (Nat × Bytes)} {q : Nat × Bytes}
    (houter : (dd, inner) ∈ spk) (hq : q ∈ inner) :
    ((dd, q.1), q.2) ∈ flattenSpk spk := by
  induction spk with
  | nil => simp at houter
  | cons p rest ih =>
    obtain ⟨d2, inner2⟩ := p
    simp only [flattenSpk, List.mem_append]
    rcases List.mem_cons.mp houter with hhead | htail
    · obtain ⟨h1, h2⟩ := Prod.ext_iff.mp hhead
      simp only at h1 h2
      subst h1
      subst h2
      exact Or.inl (List.mem_map.mpr ⟨q, hq, rfl⟩)
    · exact Or.inr (ih htail)

theorem flattenSpk_key_fst {spk : List (Nat × List (Nat × Bytes))} {key : Nat × Nat}
    (h : key ∈ keysOf (flattenSpk spk)) : key.1 ∈ keysOf spk := by
  induction spk with
  | nil => simp [flattenSpk, keysOf] at h
  | cons p rest ih =>
    obtain ⟨d2, inner2⟩ := p
    rw [keysOf] at h
    simp only [flattenSpk, List.map_append, List.mem_append, List.map_map] at h
    rcases h with hl | hr
    · obtain ⟨q, hq, he⟩ := List.mem_map.mp hl
      rw [keysOf, List.map_cons]
      rw [Function.comp_apply] at he
      rw [← he]
      exact List.mem_cons_self _ _
    · rw [keysOf, List.map_cons]
      exact List.mem_cons_of_mem _ (ih hr)

theorem flattenSpk_nodupKeys {spk : List (Nat × List (Nat × Bytes))}
    (houter : nodupKeys spk) (hinner : ∀ p, p ∈ spk → nodupKeys p.2) :
    nodupKeys (flattenSpk spk) := by
  induction spk with
  | nil => simp [flattenSpk, nodupKeys, keysOf]
  | cons p rest ih =>
    obtain ⟨d2, inner2⟩ := p
    rw [nodupKeys, keysOf, List.map_cons, List.nodup_cons] at houter
    obtain ⟨hd2, hndrest⟩ := houter
    have hin2 : nodupKeys inner2 := hinner (d2, inner2) (List.mem_cons_self _ _)
    rw [nodupKeys, keysOf]
    simp only [flattenSpk, List.map_append, List.map_map]
    rw [List.nodup_append]
    refine ⟨?_, ?_, ?_⟩
    · have : (List.map (Prod.fst ∘ fun p => ((d2, p.1), p.2)) inner2) =
        List.map (fun i => (d2, i)) (List.map Prod.fst inner2) := by
        rw [List.map_map]
        rfl
      rw [this]
      exact List.Nodup.map (fun a b hab => by
        rw [Prod.mk.injEq] at hab
        exact hab.2) hin2
    · exact ih hndrest (fun q hq => hinner q (List.mem_cons_of_mem _ hq))
    · intro key hk1 hk2
      obtain ⟨q, hq, he⟩ := List.mem_map.mp hk1
      have hkey1 : key.1 = d2 := by
        rw [← he]
        rfl
      have : key ∈ keysOf (flattenSpk rest) := hk2
      have := flattenSpk_key_fst this
      rw [hkey1] at this
      exact hd2 this

/-- Script-cache lookup stability: once a (descriptor, index) entry is in
the nested accumulator, later rows with other (descriptor, index) keys do
not disturb it. -/
theorem readSpkRows_pres (rows : List ((Nat × Nat) × Bytes))
    (acc : List (Nat × List (Nat × Bytes))) (d0 i0 : Nat) (s0 : Bytes)
    (hnm : (d0, i0) ∉ keysOf rows)
    (hP : ∃ inner, tlookup acc d0 = some inner ∧ tlookup inner i0 = some s0) :
    ∃ inner, tlookup (readSpkRows rows acc) d0 = some inner ∧
      tlookup inner i0 = some s0 := by
  induction rows generalizing acc with
  | nil => exact hP
  | cons p rest ih =>
    obtain ⟨⟨d2, i2⟩, s2⟩ := p
    have hrest : (d0, i0) ∉ keysOf rest := fun hm =>
      hnm (by rw [keysOf, List.map_cons]; exact List.mem_cons_of_mem _ hm)
    have hne : (d2, i2) ≠ (d0, i0) := fun he =>
      hnm (by rw [keysOf, List.map_cons, he]; exact List.mem_cons_self _ _)
    obtain ⟨inner, hin, hs⟩ := hP
    simp only [readSpkRows]
    refine ih _ hrest ?_
    by_cases hd : d2 = d0
    · subst hd
      have hi : i2 ≠ i0 := fun he => hne (by rw [he])
      refine ⟨mapInsert i2 s2 inner, ?_, ?_⟩
      · rw [tlookup_updIns_self, hin]
      · show tlookup (updIns i2 (fun _ => s2) s2 inner) i0 = some s0
        rw [tlookup_updIns_ne (fun he => hi he.symm)]
        exact hs
    · refine ⟨inner, ?_, hs⟩
      rw [tlookup_updIns_ne (fun he => hd he.symm)]
      exact hin

/-- Every flattened script-cache row is recoverable from the nested map
built by the read loop. -/
theorem readSpkRows_mem (rows : List ((Nat × Nat) × Bytes))
    (acc : List (Nat × List (Nat × Bytes))) (hnd : nodupKeys rows) :
    ∀ q, q ∈ rows → ∃ inner, tlookup (readSpkRows rows acc) q.1.1 = some inner ∧
      tlookup inner q.1.2 = some q.2 := by
  induction rows generalizing acc with
  | nil => intro q hq; exact absurd hq (List.not_mem_nil q)
  | cons p rest ih =>
    obtain ⟨⟨d2, i2⟩, s2⟩ := p
    rw [nodupKeys, keysOf, List.map_cons, List.nodup_cons] at hnd
    obtain ⟨hknotin, hndrest⟩ := hnd
    intro q hq
    rcases List.mem_cons.mp hq with hhead | htail
    · subst hhead
      simp only [readSpkRows]
      refine readSpkRows_pres rest _ d2 i2 s2 (fun hm => hknotin hm) ?_
      refine ⟨(match tlookup acc d2 with
        | some inner => mapInsert i2 s2 inner
        | none => [(i2, s2)]), ?_, ?_⟩
      · rw [tlookup_updIns_self]
        cases tlookup acc d2 <;> rfl
      · cases htl : tlookup acc d2 with
        | some inner =>
          show tlookup (mapInsert i2 s2 inner) i2 = some s2
          rw [mapInsert, tlookup_updIns_self]
          cases tlookup inner i2 <;> rfl
        | none =>
          show tlookup [(i2, s2)] i2 = some s2
          rw [tlookup, if_pos rfl]
    · simp only [readSpkRows]
      exact ih _ hndrest q htail

theorem map_pair_eta {α β : Type} (l : List (α × β)) : l.map (fun p => (p.1, p.2)) = l := by
  simp

/-- One write of a full changeset into the empty database, in explicit
per-table form (requires every numeric value to fit i64). -/
theorem write_changeset_empty (c : ChangeSet)
    (hf : ∀ p, p ∈ c.tx_graph.first_seen → p.2 < 2 ^ 63)
    (hl : ∀ p, p ∈ c.tx_graph.last_seen → p.2 < 2 ^ 63)
    (he : ∀ p, p ∈ c.tx_graph.last_evicted → p.2 < 2 ^ 63)
    (ho : ∀ p, p ∈ c.tx_graph.txouts → p.2.value < 2 ^ 63)
    (ha : ∀ p, p ∈ c.tx_graph.anchors → p.1.confirmation_time < 2 ^ 63) :
    write_changeset c emptyDB =
      ⟨optNetRows c.network,
       descRows c.descriptor c.change_descriptor,
       writeLCT c.local_chain.blocks [],
       tsFoldP updLE insLE c.tx_graph.last_evicted
         (tsFoldP updLS insLS c.tx_graph.last_seen
           (tsFoldP updFS insFS c.tx_graph.first_seen (writeTxsT c.tx_graph.txs []))),
       txoutFoldP c.tx_graph.txouts [],
       anchorFoldP c.tx_graph.anchors [],
       foldUpd (fun (v : Nat) _ => v) (fun v => v) c.indexer.last_revealed [],
       foldInsIgn (flattenSpk c.indexer.spk_cache) []⟩ := by
  have htg := write_tx_graph_total c.tx_graph
    { emptyDB with
        network := optNetRows c.network,
        keychain := descRows c.descriptor c.change_descriptor,
        block := writeLCT c.local_chain.blocks [] } hf hl he ho ha
  rcases hn : c.network with _ | n <;>
    rcases hdo : c.descriptor with _ | d0 <;>
      rcases hco : c.change_descriptor with _ | cd0 <;>
  · simp only [hn, hdo, hco, optNetRows, descRows, emptyDB, List.nil_append,
      List.cons_append, List.append_nil] at htg
    simp only [write_changeset, write_local_chain, write_keychain_txout, hn, hdo, hco,
      emptyDB, List.nil_append, List.cons_append, List.append_nil, htg,
      foldInsIgnC_okId, optNetRows, descRows]

/-- Lookup characterization of the tx table after the three timestamp
upsert folds: each delta entry ends with its field set, and any pre-existing
row keeps its raw transaction column. -/
theorem tsChain_lookup (d1 d2 d3 : List (Nat × Nat)) (t0 : List (Nat × TxRow))
    (hnd1 : nodupKeys d1) (hnd2 : nodupKeys d2) (hnd3 : nodupKeys d3) :
    (∀ p, p ∈ d1 → ∃ r, tlookup
      (tsFoldP updLE insLE d3 (tsFoldP updLS insLS d2 (tsFoldP updFS insFS d1 t0)))
      p.1 = some r ∧ r.first_seen = some (Int.ofNat p.2)) ∧
    (∀ p, p ∈ d2 → ∃ r, tlookup
      (tsFoldP updLE insLE d3 (tsFoldP updLS insLS d2 (tsFoldP updFS insFS d1 t0)))
      p.1 = some r ∧ r.last_seen = some (Int.ofNat p.2)) ∧
    (∀ p, p ∈ d3 → ∃ r, tlookup
      (tsFoldP updLE insLE d3 (tsFoldP updLS insLS d2 (tsFoldP updFS insFS d1 t0)))
      p.1 = some r ∧ r.last_evicted = some (Int.ofNat p.2)) ∧
    (∀ k r0, tlookup t0 k = some r0 → ∃ r, tlookup
      (tsFoldP updLE insLE d3 (tsFoldP updLS insLS d2 (tsFoldP updFS insFS d1 t0)))
      k = some r ∧ r.tx = r0.tx) := by
  simp only [tsFoldP]
  refine ⟨?_, ?_, ?_, ?_⟩
  · intro p hp
    obtain ⟨r0, hr0, hx0⟩ := foldUpd_lookup_mem_proj
      (fun a v => updFS (Int.ofNat a) v) (fun a => insFS (Int.ofNat a))
      (fun a => some (Int.ofNat a)) (fun r => r.first_seen)
      (fun a v => rfl) (fun a => rfl) d1 t0 hnd1
      (by rw [← @Prod.mk.eta _ _ p] at hp; exact hp)
    obtain ⟨r1, hr1, hx1⟩ := foldUpd_lookup_invariant
      (fun a v => updLS (Int.ofNat a) v) (fun a => insLS (Int.ofNat a))
      (fun w => w.first_seen = some (Int.ofNat p.2)) d2 _ (fun a w hw => hw) hr0 hx0
    obtain ⟨r2, hr2, hx2⟩ := foldUpd_lookup_invariant
      (fun a v => updLE (Int.ofNat a) v) (fun a => insLE (Int.ofNat a))
      (fun w => w.first_seen = some (Int.ofNat p.2)) d3 _ (fun a w hw => hw) hr1 hx1
    exact ⟨r2, hr2, hx2⟩
  · intro p hp
    obtain ⟨r0, hr0, hx0⟩ := foldUpd_lookup_mem_proj
      (fun a v => updLS (Int.ofNat a) v) (fun a => insLS (Int.ofNat a))
      (fun a => some (Int.ofNat a)) (fun r => r.last_seen)
      (fun a v => rfl) (fun a => rfl) d2 _ hnd2
      (by rw [← @Prod.mk.eta _ _ p] at hp; exact hp)
    obtain ⟨r1, hr1, hx1⟩ := foldUpd_lookup_invariant
      (fun a v => updLE (Int.ofNat a) v) (fun a => insLE (Int.ofNat a))
      (fun w => w.last_seen = some (Int.ofNat p.2)) d3 _ (fun a w hw => hw) hr0 hx0
    exact ⟨r1, hr1, hx1⟩
  · intro p hp
    exact foldUpd_lookup_mem_proj
      (fun a v => updLE (Int.ofNat a) v) (fun a => insLE (Int.ofNat a))
      (fun a => some (Int.ofNat a)) (fun r => r.last_evicted)
      (fun a v => rfl) (fun a => rfl) d3 _ hnd3
      (by rw [← @Prod.mk.eta _ _ p] at hp; exact hp)
  · intro k r0 hr0
    obtain ⟨r1, hr1, hx1⟩ := foldUpd_lookup_invariant
      (fun a v => updFS (Int.ofNat a) v) (fun a => insFS (Int.ofNat a))
      (fun w => w.tx = r0.tx) d1 _ (fun a w hw => hw) hr0 rfl
    obtain ⟨r2, hr2, hx2⟩ := foldUpd_lookup_invariant
      (fun a v => updLS (Int.ofNat a) v) (fun a => insLS (Int.ofNat a))
      (fun w => w.tx = r0.tx) d2 _ (fun a w hw => hw) hr1 hx1
    obtain ⟨r3, hr3, hx3⟩ := foldUpd_lookup_invariant
      (fun a v => updLE (Int.ofNat a) v) (fun a => insLE (Int.ofNat a))
      (fun w => w.tx = r0.tx) d3 _ (fun a w hw => hw) hr2 hx2
    exact ⟨r3, hr3, hx3⟩

/-! ## Claim theorems -/

/-- Claim C2 counterexample: with height 10 already mapped to hash 100,
writing a delta that maps height 10 to the different known hash 200 does
not make the store map 10 to 200 (the claimed upsert); the snapshot still
maps 10 to the old hash 100. -/
theorem claimC2_counterexample :
    tlookup (read_local_chain (write_local_chain ⟨[(10, some 200)]⟩
      { emptyDB with block := [(10, 100)] })).blocks 10 ≠ some (some 200) ∧
    tlookup (read_local_chain (write_local_chain ⟨[(10, some 200)]⟩
      { emptyDB with block := [(10, 100)] })).blocks 10 = some (some 100) := by
  decide

/-- Claim C2 (amended): for every height H, if the store already holds
exactly one block row at H with hash A, and write_local_chain is invoked
with a delta mapping H to a known hash B, then after the write H still
maps to A — the hash-present write for an existing height is skipped
(first write wins) — and the at-most-one-hash-per-height invariant is
preserved. -/
theorem claimC2_amended (d : List (Nat × Option Nat)) (s : DB) (H A B : Nat)
    (hnd : nodupKeys d) (hm : (H, some B) ∈ d) (hrow : rowsAt H s.block = [A]) :
    rowsAt H (write_local_chain ⟨d⟩ s).block = [A] ∧
    tlookup (read_local_chain (write_local_chain ⟨d⟩ s)).blocks H = some (some A) := by
  have hs : (tlookup s.block H).isSome := tlookup_isSome_of_rowsAt hrow
  have h1 : rowsAt H (writeLCT d s.block) = [A] := by
    rw [writeLCT_rowsAt_present d s.block hnd hm hs, hrow]
  refine ⟨h1, ?_⟩
  show tlookup (readBlockRows (writeLCT d s.block) []) H = some (some A)
  rw [readBlockRows_lookup, lastAt_of_rowsAt_single h1]

/-- Claim C2 witness: a concrete instance of the amended claim. -/
theorem claimC2_witness :
    rowsAt 5 (write_local_chain ⟨[(5, some 7)]⟩ { emptyDB with block := [(5, 3)] }).block = [3] ∧
    tlookup (read_local_chain (write_local_chain ⟨[(5, some 7)]⟩
      { emptyDB with block := [(5, 3)] })).blocks 5 = some (some 3) :=
  claimC2_amended [(5, some 7)] { emptyDB with block := [(5, 3)] } 5 3 7
    (by decide) (by decide) (by decide)

/-- Claim C6: writing a chain delta that maps a height H to unknown (None)
after H previously held a known hash deletes the rows for H, so the
snapshot chain history has no entry at H at all. -/
theorem claimC6_reorg_retraction (d : List (Nat × Option Nat)) (s : DB) (H A : Nat)
    (hnd : nodupKeys d) (hm : (H, none) ∈ d) (_hprev : (H, A) ∈ s.block) :
    tlookup (read_local_chain (write_local_chain ⟨d⟩ s)).blocks H = none := by
  have h1 : rowsAt H (writeLCT d s.block) = [] := writeLCT_rowsAt_none d s.block hnd hm
  show tlookup (readBlockRows (writeLCT d s.block) []) H = none
  rw [readBlockRows_lookup, lastAt_of_rowsAt_nil h1]
  rfl

/-- Claim C6 witness: a concrete retraction of a previously stored hash. -/
theorem claimC6_witness :
    tlookup (read_local_chain (write_local_chain ⟨[(9, none)]⟩
      { emptyDB with block := [(9, 4)] })).blocks 9 = none :=
  claimC6_reorg_retraction [(9, none)] { emptyDB with block := [(9, 4)] } 9 4
    (by decide) (by decide) (by decide)

/-- Claim C7: re-applying a delta with a different confirmation time for an
already-recorded (height, hash, txid) anchor key leaves the stored
confirmation time unchanged, and re-applying a delta with a different
script for an already-present (descriptor, index) cache key leaves the
cached script unchanged (INSERT OR IGNORE immutability). -/
theorem claimC7_insert_ignore_immutable (g : TxGraphCS) (kc : KeychainTxoutCS) (s : DB)
    (key : Nat × Nat × Nat) (c0 : Int) (sk : Nat × Nat) (scr : Bytes)
    (hA : tlookup s.anchor key = some c0) (hS : tlookup s.spkCache sk = some scr) :
    tlookup ((write_tx_graph g s).1).anchor key = some c0 ∧
    tlookup (write_keychain_txout kc s).spkCache sk = some scr :=
  ⟨write_tx_graph_anchor_preserve g s hA, write_keychain_txout_spk_preserve kc s hS⟩

/-- Claim C7 witness: a stored anchor time 500 survives a re-write with
time 999, and a cached script [8] survives a re-write with script [7]. -/
theorem claimC7_witness :
    tlookup ((write_tx_graph { emptyTxGraphCS with anchors := [(⟨5, 6, 999⟩, 1)] }
      { emptyDB with anchor := [((5, 6, 1), 500)], spkCache := [((9, 0), [8])] }).1).anchor
      (5, 6, 1) = some 500 ∧
    tlookup (write_keychain_txout ⟨[], [(9, [(0, [7])])]⟩
      { emptyDB with anchor := [((5, 6, 1), 500)], spkCache := [((9, 0), [8])] }).spkCache
      (9, 0) = some [8] :=
  claimC7_insert_ignore_immutable { emptyTxGraphCS with anchors := [(⟨5, 6, 999⟩, 1)] }
    ⟨[], [(9, [(0, [7])])]⟩
    { emptyDB with anchor := [((5, 6, 1), 500)], spkCache := [((9, 0), [8])] }
    (5, 6, 1) 500 (9, 0) [8] (by decide) (by decide)

/-- Claim C3 (code bug evidence): when the migration outcome is a
MigrationError, initialize does not fail; the source discards the Result
of migrate() and proceeds to read, returning a successful snapshot. -/
theorem claimC3_initialize_swallows_migration_error :
    initializeStore (Except.error Err.migrate) emptyDB = Except.ok emptyChangeSet := by
  rfl

/-- Claim C5 (code bug evidence): persisting a changeset whose first-seen
timestamp does not fit i64 makes the underlying write fail with the typed
FromInt (RangeError) error, yet persist discards it and resolves Ok with
the unit error type. -/
theorem claimC5_persist_discards_typed_error :
    (write_tx_graph hugeTsCS.tx_graph emptyDB).2 = some Err.fromInt ∧
    persist hugeTsCS emptyDB = (emptyDB, Except.ok ()) := by
  constructor
  · rfl
  · rfl

/-- Claim C9: writing a single timestamp that exceeds the signed 64-bit
width fails with the FromInt (RangeError) conversion error and leaves the
database unchanged (no partial write of that row); likewise a single
output whose satoshi value exceeds the signed 64-bit width; and on
read-back, a stored output row with a negative satoshi value makes the
snapshot read fail (never return Ok). -/
theorem claimC9_range_rejection (s : DB) (txid t : Nat) (op : Nat × Nat) (v : TxoutV)
    (k2 : Nat × Nat) (r : TxoutRow)
    (ht : 2 ^ 63 ≤ t) (hv : 2 ^ 63 ≤ v.value) (hr : (k2, r) ∈ s.txout) (hneg : r.value < 0) :
    write_tx_graph { emptyTxGraphCS with first_seen := [(txid, t)] } s = (s, some Err.fromInt) ∧
    write_tx_graph { emptyTxGraphCS with txouts := [(op, v)] } s = (s, some Err.fromInt) ∧
    ∀ g, read_tx_graph s ≠ Except.ok g := by
  have h1 : i64OfU64 t = Except.error Err.fromInt := by
    rw [i64OfU64, if_neg (Nat.not_lt.mpr ht)]
  have h2 : convTxout v = Except.error Err.fromInt := by
    rw [convTxout, i64OfU64, if_neg (Nat.not_lt.mpr hv)]
  refine ⟨?_, ?_, ?_⟩
  · simp only [write_tx_graph, writeTxPart, writeTxsT, List.map_nil, foldUpd, writeTsT,
      foldUpdC, h1]
  · simp only [write_tx_graph, writeTxPart, writeTxsT, List.map_nil, foldUpd, writeTsT,
      foldUpdC, writeTxoutsT, h2]
  · intro g hok
    simp only [read_tx_graph] at hok
    split at hok
    · simp at hok
    · rename_i g1 h3
      split at hok
      · simp at hok
      · rename_i g2 h4
        exact readTxoutRows_neg hr hneg g1 g2 h4

/-- Claim C9 witness: a concrete instance with timestamp and value 2^63
and a stored row with value -5. -/
theorem claimC9_witness :
    write_tx_graph { emptyTxGraphCS with first_seen := [(1, 2 ^ 63)] }
      { emptyDB with txout := [((2, 0), ⟨-5, [1]⟩)] } =
      ({ emptyDB with txout := [((2, 0), ⟨-5, [1]⟩)] }, some Err.fromInt) ∧
    write_tx_graph { emptyTxGraphCS with txouts := [((1, 0), ⟨2 ^ 63, []⟩)] }
      { emptyDB with txout := [((2, 0), ⟨-5, [1]⟩)] } =
      ({ emptyDB with txout := [((2, 0), ⟨-5, [1]⟩)] }, some Err.fromInt) ∧
    ∀ g, read_tx_graph { emptyDB with txout := [((2, 0), ⟨-5, [1]⟩)] } ≠ Except.ok g :=
  claimC9_range_rejection { emptyDB with txout := [((2, 0), ⟨-5, [1]⟩)] }
    1 (2 ^ 63) (1, 0) ⟨2 ^ 63, []⟩ (2, 0) ⟨-5, [1]⟩
    (by decide) (by decide) (by decide) (by decide)

/-- Claim C10: whenever read_tx_graph returns successfully, the returned
changeset has a first-seen, last-seen and last-evicted entry for every row
of the tx table, and the row raw transaction deserializes into a member of
the returned transaction set — the read decodes all columns
unconditionally for every row. -/
theorem claimC10_read_decodes_every_row (s : DB) (g : TxGraphCS)
    (h : read_tx_graph s = Except.ok g) :
    ∀ p, p ∈ s.tx →
      (tlookup g.first_seen p.1).isSome ∧
      (tlookup g.last_seen p.1).isSome ∧
      (tlookup g.last_evicted p.1).isSome ∧
      ∃ tx, deserializeTx (getBlob p.2.tx) = Except.ok tx ∧ tx ∈ g.txs := by
  simp only [read_tx_graph] at h
  split at h
  · simp at h
  · rename_i g1 h1
    split at h
    · simp at h
    · rename_i g2 h2
      obtain ⟨htxs1, hfs1, hls1, hle1, hrows⟩ := readTxRows_ok_props s.tx emptyTxGraphCS g1 h1
      obtain ⟨ht2, hf2, hl2, he2, _⟩ := readTxoutRows_ok_fields s.txout g1 g2 h2
      obtain ⟨ht3, hf3, hl3, he3, _⟩ := readAnchorRows_ok_fields s.anchor g2 g h
      intro p hp
      obtain ⟨ha, hb, hc, tx, hdec, htx⟩ := hrows p hp
      refine ⟨?_, ?_, ?_, tx, hdec, ?_⟩
      · rw [hf3, hf2]; exact ha
      · rw [hl3, hl2]; exact hb
      · rw [he3, he2]; exact hc
      · rw [ht3, ht2]; exact htx

/-- Claim C10 witness: a concrete successful read with one full tx row,
instantiated at that row. -/
theorem claimC10_witness :
    (tlookup (⟨[1], [], [], [(1, 5)], [(1, 6)], [(1, 7)]⟩ : TxGraphCS).first_seen 1).isSome ∧
    (tlookup (⟨[1], [], [], [(1, 5)], [(1, 6)], [(1, 7)]⟩ : TxGraphCS).last_seen 1).isSome ∧
    (tlookup (⟨[1], [], [], [(1, 5)], [(1, 6)], [(1, 7)]⟩ : TxGraphCS).last_evicted 1).isSome ∧
    ∃ tx, deserializeTx (getBlob (some [1])) = Except.ok tx ∧
      tx ∈ (⟨[1], [], [], [(1, 5)], [(1, 6)], [(1, 7)]⟩ : TxGraphCS).txs :=
  claimC10_read_decodes_every_row { emptyDB with tx := [(1, ⟨some [1], some 5, some 6, some 7⟩)] }
    ⟨[1], [], [], [(1, 5)], [(1, 6)], [(1, 7)]⟩ (by rfl)
    (1, ⟨some [1], some 5, some 6, some 7⟩) (by decide)


/-- Claim C8: for every delta restricted to the upsert collections —
transaction timestamps (first seen, last seen, last evicted), output
records, and the keychain derivation index — with values in signed 64-bit
range, applying the delta twice yields the same snapshot (and the same
database state) as applying it once. -/
theorem claimC8_upsert_idempotent (c : ChangeSet) (s : DB)
    (hnet : c.network = none) (hd : c.descriptor = none) (hcd : c.change_descriptor = none)
    (hlc : c.local_chain.blocks = []) (htxs : c.tx_graph.txs = [])
    (hanc : c.tx_graph.anchors = []) (hspk : c.indexer.spk_cache = [])
    (hndf : nodupKeys c.tx_graph.first_seen) (hndl : nodupKeys c.tx_graph.last_seen)
    (hnde : nodupKeys c.tx_graph.last_evicted) (hndo : nodupKeys c.tx_graph.txouts)
    (hndr : nodupKeys c.indexer.last_revealed)
    (hf : ∀ p, p ∈ c.tx_graph.first_seen → p.2 < 2 ^ 63)
    (hl : ∀ p, p ∈ c.tx_graph.last_seen → p.2 < 2 ^ 63)
    (he : ∀ p, p ∈ c.tx_graph.last_evicted → p.2 < 2 ^ 63)
    (ho : ∀ p, p ∈ c.tx_graph.txouts → p.2.value < 2 ^ 63) :
    read_changeset (write_changeset c (write_changeset c s)) =
      read_changeset (write_changeset c s) ∧
    write_changeset c (write_changeset c s) = write_changeset c s := by
  have hW := write_changeset_restricted c s hnet hd hcd hlc htxs hanc hspk hf hl he ho
  have hW2 := write_changeset_restricted c (write_changeset c s)
    hnet hd hcd hlc htxs hanc hspk hf hl he ho
  simp only [tsFoldP, txoutFoldP] at hW hW2
  have F1 : ∀ p, p ∈ c.tx_graph.first_seen →
      ∃ r, tlookup
        (foldUpd (fun a v => updLE (Int.ofNat a) v) (fun a => insLE (Int.ofNat a)) c.tx_graph.last_evicted
          (foldUpd (fun a v => updLS (Int.ofNat a) v) (fun a => insLS (Int.ofNat a)) c.tx_graph.last_seen
            (foldUpd (fun a v => updFS (Int.ofNat a) v) (fun a => insFS (Int.ofNat a)) c.tx_graph.first_seen s.tx)))
        p.1 = some r ∧ r.first_seen = some (Int.ofNat p.2) := by
    intro p hp
    obtain ⟨r0, hr0, hx0⟩ := foldUpd_lookup_mem_proj
      (fun a v => updFS (Int.ofNat a) v) (fun a => insFS (Int.ofNat a))
      (fun a => some (Int.ofNat a)) (fun r => r.first_seen)
      (fun a v => rfl) (fun a => rfl) c.tx_graph.first_seen s.tx hndf
      (by rw [← @Prod.mk.eta _ _ p] at hp; exact hp)
    obtain ⟨r1, hr1, hx1⟩ := foldUpd_lookup_invariant
      (fun a v => updLS (Int.ofNat a) v) (fun a => insLS (Int.ofNat a))
      (fun w => w.first_seen = some (Int.ofNat p.2))
      c.tx_graph.last_seen _ (fun a w hw => hw) hr0 hx0
    obtain ⟨r2, hr2, hx2⟩ := foldUpd_lookup_invariant
      (fun a v => updLE (Int.ofNat a) v) (fun a => insLE (Int.ofNat a))
      (fun w => w.first_seen = some (Int.ofNat p.2))
      c.tx_graph.last_evicted _ (fun a w hw => hw) hr1 hx1
    exact ⟨r2, hr2, hx2⟩
  have F2 : ∀ p, p ∈ c.tx_graph.last_seen →
      ∃ r, tlookup
        (foldUpd (fun a v => updLE (Int.ofNat a) v) (fun a => insLE (Int.ofNat a)) c.tx_graph.last_evicted
          (foldUpd (fun a v => updLS (Int.ofNat a) v) (fun a => insLS (Int.ofNat a)) c.tx_graph.last_seen
            (foldUpd (fun a v => updFS (Int.ofNat a) v) (fun a => insFS (Int.ofNat a)) c.tx_graph.first_seen s.tx)))
        p.1 = some r ∧ r.last_seen = some (Int.ofNat p.2) := by
    intro p hp
    obtain ⟨r0, hr0, hx0⟩ := foldUpd_lookup_mem_proj
      (fun a v => updLS (Int.ofNat a) v) (fun a => insLS (Int.ofNat a))
      (fun a => some (Int.ofNat a)) (fun r => r.last_seen)
      (fun a v => rfl) (fun a => rfl) c.tx_graph.last_seen _ hndl
      (by rw [← @Prod.mk.eta _ _ p] at hp; exact hp)
    obtain ⟨r1, hr1, hx1⟩ := foldUpd_lookup_invariant
      (fun a v => updLE (Int.ofNat a) v) (fun a => insLE (Int.ofNat a))
      (fun w => w.last_seen = some (Int.ofNat p.2))
      c.tx_graph.last_evicted _ (fun a w hw => hw) hr0 hx0
    exact ⟨r1, hr1, hx1⟩
  have F3 : ∀ p, p ∈ c.tx_graph.last_evicted →
      ∃ r, tlookup
        (foldUpd (fun a v => updLE (Int.ofNat a) v) (fun a => insLE (Int.ofNat a)) c.tx_graph.last_evicted
          (foldUpd (fun a v => updLS (Int.ofNat a) v) (fun a => insLS (Int.ofNat a)) c.tx_graph.last_seen
            (foldUpd (fun a v => updFS (Int.ofNat a) v) (fun a => insFS (Int.ofNat a)) c.tx_graph.first_seen s.tx)))
        p.1 = some r ∧ r.last_evicted = some (Int.ofNat p.2) := by
    intro p hp
    exact foldUpd_lookup_mem_proj
      (fun a v => updLE (Int.ofNat a) v) (fun a => insLE (Int.ofNat a))
      (fun a => some (Int.ofNat a)) (fun r => r.last_evicted)
      (fun a v => rfl) (fun a => rfl) c.tx_graph.last_evicted _ hnde
      (by rw [← @Prod.mk.eta _ _ p] at hp; exact hp)
  have N1 := foldUpd_noop (fun a v => updFS (Int.ofNat a) v) (fun a => insFS (Int.ofNat a))
    c.tx_graph.first_seen
    (foldUpd (fun a v => updLE (Int.ofNat a) v) (fun a => insLE (Int.ofNat a)) c.tx_graph.last_evicted
      (foldUpd (fun a v => updLS (Int.ofNat a) v) (fun a => insLS (Int.ofNat a)) c.tx_graph.last_seen
        (foldUpd (fun a v => updFS (Int.ofNat a) v) (fun a => insFS (Int.ofNat a)) c.tx_graph.first_seen s.tx)))
    (fun p hp => by
      obtain ⟨r, hr, hx⟩ := F1 p hp
      exact ⟨r, hr, updFS_self hx⟩)
  have N2 := foldUpd_noop (fun a v => updLS (Int.ofNat a) v) (fun a => insLS (Int.ofNat a))
    c.tx_graph.last_seen
    (foldUpd (fun a v => updLE (Int.ofNat a) v) (fun a => insLE (Int.ofNat a)) c.tx_graph.last_evicted
      (foldUpd (fun a v => updLS (Int.ofNat a) v) (fun a => insLS (Int.ofNat a)) c.tx_graph.last_seen
        (foldUpd (fun a v => updFS (Int.ofNat a) v) (fun a => insFS (Int.ofNat a)) c.tx_graph.first_seen s.tx)))
    (fun p hp => by
      obtain ⟨r, hr, hx⟩ := F2 p hp
      exact ⟨r, hr, updLS_self hx⟩)
  have N3 := foldUpd_noop (fun a v => updLE (Int.ofNat a) v) (fun a => insLE (Int.ofNat a))
    c.tx_graph.last_evicted
    (foldUpd (fun a v => updLE (Int.ofNat a) v) (fun a => insLE (Int.ofNat a)) c.tx_graph.last_evicted
      (foldUpd (fun a v => updLS (Int.ofNat a) v) (fun a => insLS (Int.ofNat a)) c.tx_graph.last_seen
        (foldUpd (fun a v => updFS (Int.ofNat a) v) (fun a => insFS (Int.ofNat a)) c.tx_graph.first_seen s.tx)))
    (fun p hp => by
      obtain ⟨r, hr, hx⟩ := F3 p hp
      exact ⟨r, hr, updLE_self hx⟩)
  have NO := foldUpd_noop
    (fun (a : TxoutV) (_ : TxoutRow) => (⟨Int.ofNat a.value, a.script⟩ : TxoutRow))
    (fun a => ⟨Int.ofNat a.value, a.script⟩) c.tx_graph.txouts
    (foldUpd (fun (a : TxoutV) (_ : TxoutRow) => (⟨Int.ofNat a.value, a.script⟩ : TxoutRow))
      (fun a => ⟨Int.ofNat a.value, a.script⟩) c.tx_graph.txouts s.txout)
    (fun p hp => by
      obtain ⟨r, hr, hx⟩ := foldUpd_lookup_mem_proj
        (fun (a : TxoutV) (_ : TxoutRow) => (⟨Int.ofNat a.value, a.script⟩ : TxoutRow))
        (fun a => ⟨Int.ofNat a.value, a.script⟩)
        (fun a => (⟨Int.ofNat a.value, a.script⟩ : TxoutRow)) (fun r => r)
        (fun a v => rfl) (fun a => rfl) c.tx_graph.txouts s.txout hndo
        (by rw [← @Prod.mk.eta _ _ p] at hp; exact hp)
      exact ⟨r, hr, by rw [hx]⟩)
  have NR := foldUpd_noop (fun (v : Nat) (_ : Nat) => v) (fun v => v)
    c.indexer.last_revealed
    (foldUpd (fun (v : Nat) (_ : Nat) => v) (fun v => v) c.indexer.last_revealed s.lastRevealed)
    (fun p hp => by
      obtain ⟨r, hr, hx⟩ := foldUpd_lookup_mem_proj
        (fun (v : Nat) (_ : Nat) => v) (fun v => v) (fun v => v) (fun r => r)
        (fun a v => rfl) (fun a => rfl) c.indexer.last_revealed s.lastRevealed hndr
        (by rw [← @Prod.mk.eta _ _ p] at hp; exact hp)
      exact ⟨r, hr, hx.symm⟩)
  have hstate : write_changeset c (write_changeset c s) = write_changeset c s := by
    rw [hW2, hW]
    simp only [N1, N2, N3, NO, NR]
  exact ⟨congrArg read_changeset hstate, hstate⟩

/-- Claim C8 witness: a concrete delta of one timestamp triple, one output
and one derivation index applied twice from the empty store. -/
theorem claimC8_witness :
    read_changeset (write_changeset upsertOnlyCS (write_changeset upsertOnlyCS emptyDB)) =
      read_changeset (write_changeset upsertOnlyCS emptyDB) ∧
    write_changeset upsertOnlyCS (write_changeset upsertOnlyCS emptyDB) =
      write_changeset upsertOnlyCS emptyDB :=
  claimC8_upsert_idempotent upsertOnlyCS emptyDB rfl rfl rfl rfl rfl rfl rfl
    (by decide) (by decide) (by decide) (by decide) (by decide)
    (by decide) (by decide) (by decide) (by decide)


/-- Claim C1 counterexample: a changeset holding only a first-seen
timestamp (no raw transaction) is written, but the snapshot read then
fails with a decode error on the NULL transaction blob (read as the empty
blob), so the timestamp is not recovered. -/
theorem claimC1_counterexample :
    read_changeset (write_changeset tsOnlyCS emptyDB) = Except.error Err.decode := by
  rfl


/-- Claim C1 (amended): round trip holds for a changeset written to the
empty store provided every numeric value fits a signed 64-bit integer, the
anchor set carries at most one confirmation time per (height, hash, txid)
key, and every txid bearing a timestamp also has its raw transaction in
the changeset; the snapshot then contains every entity of the changeset
under map/set union semantics.  (A transaction without timestamps is
recovered; a timestamp without its raw transaction is not, see the
counterexample.) -/
theorem claimC1_roundtrip_amended (c : ChangeSet)
    (htxnd : c.tx_graph.txs.Nodup)
    (hndf : nodupKeys c.tx_graph.first_seen) (hndl : nodupKeys c.tx_graph.last_seen)
    (hnde : nodupKeys c.tx_graph.last_evicted) (hndo : nodupKeys c.tx_graph.txouts)
    (handa : (c.tx_graph.anchors.map anchorKey).Nodup)
    (hndb : nodupKeys c.local_chain.blocks)
    (hndr : nodupKeys c.indexer.last_revealed)
    (hnds : nodupKeys c.indexer.spk_cache)
    (hndsi : ∀ p, p ∈ c.indexer.spk_cache → nodupKeys p.2)
    (hf : ∀ p, p ∈ c.tx_graph.first_seen → p.2 < 2 ^ 63)
    (hl : ∀ p, p ∈ c.tx_graph.last_seen → p.2 < 2 ^ 63)
    (he : ∀ p, p ∈ c.tx_graph.last_evicted → p.2 < 2 ^ 63)
    (ho : ∀ p, p ∈ c.tx_graph.txouts → p.2.value < 2 ^ 63)
    (ha : ∀ p, p ∈ c.tx_graph.anchors → p.1.confirmation_time < 2 ^ 63)
    (hc1 : ∀ p, p ∈ c.tx_graph.first_seen → p.1 ∈ c.tx_graph.txs)
    (hc2 : ∀ p, p ∈ c.tx_graph.last_seen → p.1 ∈ c.tx_graph.txs)
    (hc3 : ∀ p, p ∈ c.tx_graph.last_evicted → p.1 ∈ c.tx_graph.txs) :
    ∃ cs, read_changeset (write_changeset c emptyDB) = Except.ok cs ∧
      (∀ n, c.network = some n → cs.network = some n) ∧
      (∀ x, c.descriptor = some x → cs.descriptor = some x) ∧
      (∀ x, c.change_descriptor = some x → cs.change_descriptor = some x) ∧
      (∀ h hb, (h, some hb) ∈ c.local_chain.blocks →
        tlookup cs.local_chain.blocks h = some (some hb)) ∧
      (∀ tx, tx ∈ c.tx_graph.txs → tx ∈ cs.tx_graph.txs) ∧
      (∀ p, p ∈ c.tx_graph.first_seen → tlookup cs.tx_graph.first_seen p.1 = some p.2) ∧
      (∀ p, p ∈ c.tx_graph.last_seen → tlookup cs.tx_graph.last_seen p.1 = some p.2) ∧
      (∀ p, p ∈ c.tx_graph.last_evicted → tlookup cs.tx_graph.last_evicted p.1 = some p.2) ∧
      (∀ p, p ∈ c.tx_graph.txouts → tlookup cs.tx_graph.txouts p.1 = some p.2) ∧
      (∀ p, p ∈ c.tx_graph.anchors → p ∈ cs.tx_graph.anchors) ∧
      (∀ p, p ∈ c.indexer.last_revealed → tlookup cs.indexer.last_revealed p.1 = some p.2) ∧
      (∀ dd inner, (dd, inner) ∈ c.indexer.spk_cache → ∀ q, q ∈ inner →
        ∃ inner2, tlookup cs.indexer.spk_cache dd = some inner2 ∧
          tlookup inner2 q.1 = some q.2) := by
  have hW := write_changeset_empty c hf hl he ho ha
  simp only [tsFoldP] at hW
  -- the tx table laid down by the txs loop
  have hT0 : writeTxsT c.tx_graph.txs [] =
      c.tx_graph.txs.map (fun tx => (tx, (⟨some [tx], none, none, none⟩ : TxRow))) := by
    rw [writeTxsT, foldUpd_nil_eq_map, List.map_map]
    · rfl
    · simp only [nodupKeys, keysOf, List.map_map]
      simpa [Function.comp_def, compute_txid] using htxnd
  have hT0nd : nodupKeys (writeTxsT c.tx_graph.txs []) := by
    rw [hT0, nodupKeys, keysOf, List.map_map]
    simpa [Function.comp_def] using htxnd
  have hT0keys : keysOf (writeTxsT c.tx_graph.txs []) = c.tx_graph.txs := by
    rw [hT0, keysOf, List.map_map]
    simp [Function.comp_def]
  have hT0rows : ∀ q, q ∈ writeTxsT c.tx_graph.txs [] →
      q.2.tx = some [q.1] ∧ 0 ≤ getI64 q.2.first_seen ∧
      0 ≤ getI64 q.2.last_seen ∧ 0 ≤ getI64 q.2.last_evicted := by
    rw [hT0]
    intro q hq
    obtain ⟨tx, htx, he2⟩ := List.mem_map.mp hq
    rw [← he2]
    exact ⟨rfl, le_refl 0, le_refl 0, le_refl 0⟩
  -- the invariants survive the three timestamp folds
  have hInv1 := foldUpd_present_invariant
    (fun a v => updFS (Int.ofNat a) v) (fun a => insFS (Int.ofNat a))
    (fun k r => r.tx = some [k] ∧ 0 ≤ getI64 r.first_seen ∧
      0 ≤ getI64 r.last_seen ∧ 0 ≤ getI64 r.last_evicted)
    c.tx_graph.first_seen (writeTxsT c.tx_graph.txs []) hT0nd
    (fun p hp => by
      rw [tlookup_isSome_iff_mem_keys, hT0keys]
      exact hc1 p hp)
    hT0rows
    (fun a k v hv => ⟨hv.1,
      by simp only [updFS, getI64, Option.getD_some]; exact Int.natCast_nonneg a,
      hv.2.2.1, hv.2.2.2⟩)
  obtain ⟨hT1nd, hT1rows, hT1keys⟩ := hInv1
  have hInv2 := foldUpd_present_invariant
    (fun a v => updLS (Int.ofNat a) v) (fun a => insLS (Int.ofNat a))
    (fun k r => r.tx = some [k] ∧ 0 ≤ getI64 r.first_seen ∧
      0 ≤ getI64 r.last_seen ∧ 0 ≤ getI64 r.last_evicted)
    c.tx_graph.last_seen _ hT1nd
    (fun p hp => by
      rw [tlookup_isSome_iff_mem_keys, hT1keys, hT0keys]
      exact hc2 p hp)
    hT1rows
    (fun a k v hv => ⟨hv.1, hv.2.1,
      by simp only [updLS, getI64, Option.getD_some]; exact Int.natCast_nonneg a,
      hv.2.2.2⟩)
  obtain ⟨hT2nd, hT2rows, hT2keys⟩ := hInv2
  have hInv3 := foldUpd_present_invariant
    (fun a v => updLE (Int.ofNat a) v) (fun a => insLE (Int.ofNat a))
    (fun k r => r.tx = some [k] ∧ 0 ≤ getI64 r.first_seen ∧
      0 ≤ getI64 r.last_seen ∧ 0 ≤ getI64 r.last_evicted)
    c.tx_graph.last_evicted _ hT2nd
    (fun p hp => by
      rw [tlookup_isSome_iff_mem_keys, hT2keys, hT1keys, hT0keys]
      exact hc3 p hp)
    hT2rows
    (fun a k v hv => ⟨hv.1, hv.2.1, hv.2.2.1,
      by simp only [updLE, getI64, Option.getD_some]; exact Int.natCast_nonneg a⟩)
  obtain ⟨hTnd, hTrows, hTkeys⟩ := hInv3
  have hts := tsChain_lookup c.tx_graph.first_seen c.tx_graph.last_seen
    c.tx_graph.last_evicted (writeTxsT c.tx_graph.txs []) hndf hndl hnde
  simp only [tsFoldP] at hts
  obtain ⟨htsF, htsL, htsE, htsTx⟩ := hts
  -- read the tx rows back
  obtain ⟨g1, hg1, hmono1, hpf1, hpl1, hpe1, hoa1, hrows1⟩ :=
    readTxRows_exact _ emptyTxGraphCS hTnd
      (fun q hq => ⟨⟨q.1, (hTrows q hq).1⟩, (hTrows q hq).2.1,
        (hTrows q hq).2.2.1, (hTrows q hq).2.2.2⟩)
  -- the txout table and its read
  have hO : txoutFoldP c.tx_graph.txouts [] =
      c.tx_graph.txouts.map
        (fun p => (p.1, (⟨Int.ofNat p.2.value, p.2.script⟩ : TxoutRow))) := by
    rw [txoutFoldP, foldUpd_nil_eq_map]
    exact hndo
  have hOnd : nodupKeys (txoutFoldP c.tx_graph.txouts []) := by
    rw [hO, nodupKeys, keysOf, List.map_map]
    simpa using hndo
  have hOdec : ∀ q, q ∈ txoutFoldP c.tx_graph.txouts [] → 0 ≤ q.2.value := by
    rw [hO]
    intro q hq
    obtain ⟨p, hp, he2⟩ := List.mem_map.mp hq
    rw [← he2]
    show (0 : Int) ≤ Int.ofNat p.2.value
    exact Int.natCast_nonneg _
  obtain ⟨g2, hg2, hfields2, hpres2, hrows2⟩ :=
    readTxoutRows_exact (txoutFoldP c.tx_graph.txouts []) g1 hOnd hOdec
  -- the anchor table and its read
  have hA : anchorFoldP c.tx_graph.anchors [] =
      c.tx_graph.anchors.map
        (fun p => (anchorKey p, Int.ofNat p.1.confirmation_time)) := by
    rw [anchorFoldP, foldInsIgn_nil]
    rw [nodupKeys, keysOf, List.map_map]
    simpa using handa
  have hAdec : ∀ q, q ∈ anchorFoldP c.tx_graph.anchors [] → 0 ≤ q.2 := by
    rw [hA]
    intro q hq
    obtain ⟨p, hp, he2⟩ := List.mem_map.mp hq
    rw [← he2]
    show (0 : Int) ≤ Int.ofNat p.1.confirmation_time
    exact Int.natCast_nonneg _
  obtain ⟨g3, hg3, hfields3, hmono3, hrows3⟩ :=
    readAnchorRows_exact (anchorFoldP c.tx_graph.anchors []) g2 hAdec
  -- the descriptor read
  obtain ⟨m, hm, hm0, hm1⟩ := readDescAux_descRows c.descriptor c.change_descriptor
  -- the last-revealed table collapses to the delta itself
  have hTR : foldUpd (fun (v : Nat) _ => v) (fun v => v) c.indexer.last_revealed [] =
      c.indexer.last_revealed := by
    rw [foldUpd_nil_eq_map _ _ _ hndr, map_pair_eta]
  -- the script-cache table collapses to the flattened delta
  have hSC : foldInsIgn (flattenSpk c.indexer.spk_cache) [] =
      flattenSpk c.indexer.spk_cache :=
    foldInsIgn_nil _ (flattenSpk_nodupKeys hnds hndsi)
  -- assemble the snapshot
  refine ⟨⟨tlookup m 0, tlookup m 1, (optNetRows c.network).head?,
    ⟨readBlockRows (writeLCT c.local_chain.blocks []) []⟩, g3,
    ⟨foldUpd (fun (v : Nat) _ => v) (fun v => v) c.indexer.last_revealed [],
      readSpkRows (flattenSpk c.indexer.spk_cache) []⟩⟩, ?_, ?_, ?_, ?_, ?_, ?_, ?_, ?_, ?_, ?_, ?_, ?_, ?_⟩
  · rw [hW]
    simp only [read_changeset, read_keychain_descriptors, read_network,
      read_local_chain, read_tx_graph, read_keychain_txout, hm, hg1, hg2, hg3, hTR, hSC]
  · intro n hn
    rw [hn]
    rfl
  · intro x hx
    rw [hm0, hx]
  · intro x hx
    rw [hm1, hx]
  · intro h hb hmem
    show tlookup (readBlockRows (writeLCT c.local_chain.blocks []) []) h = some (some hb)
    have hrow : rowsAt h (writeLCT c.local_chain.blocks []) = [hb] :=
      writeLCT_rowsAt_fresh c.local_chain.blocks [] hndb hmem rfl rfl
    rw [readBlockRows_lookup, lastAt_of_rowsAt_single hrow]
  · intro tx htx
    have hrow0 : tlookup (writeTxsT c.tx_graph.txs []) tx =
        some (⟨some [tx], none, none, none⟩ : TxRow) := by
      apply tlookup_of_mem hT0nd
      rw [hT0]
      exact List.mem_map.mpr ⟨tx, htx, rfl⟩
    obtain ⟨r, hr, hrtx⟩ := htsTx tx _ hrow0
    have hmem := mem_of_tlookup hr
    have := (hrows1 (tx, r) hmem).2.2.2 tx hrtx
    show tx ∈ g3.txs
    rw [hfields3.1, hfields2.1]
    exact this
  · intro p hp
    obtain ⟨r, hr, hfs⟩ := htsF p hp
    have hmem := mem_of_tlookup hr
    have hlook := (hrows1 (p.1, r) hmem).1
    show tlookup g3.first_seen p.1 = some p.2
    rw [hfields3.2.1, hfields2.2.1, hlook, hfs]
    rfl
  · intro p hp
    obtain ⟨r, hr, hls⟩ := htsL p hp
    have hmem := mem_of_tlookup hr
    have hlook := (hrows1 (p.1, r) hmem).2.1
    show tlookup g3.last_seen p.1 = some p.2
    rw [hfields3.2.2.1, hfields2.2.2.1, hlook, hls]
    rfl
  · intro p hp
    obtain ⟨r, hr, hle2⟩ := htsE p hp
    have hmem := mem_of_tlookup hr
    have hlook := (hrows1 (p.1, r) hmem).2.2.1
    show tlookup g3.last_evicted p.1 = some p.2
    rw [hfields3.2.2.2.1, hfields2.2.2.2.1, hlook, hle2]
    rfl
  · intro p hp
    have hmem : (p.1, (⟨Int.ofNat p.2.value, p.2.script⟩ : TxoutRow)) ∈
        txoutFoldP c.tx_graph.txouts [] := by
      rw [hO]
      exact List.mem_map.mpr ⟨p, hp, rfl⟩
    have h2 := hrows2 _ hmem
    show tlookup g3.txouts p.1 = some p.2
    rw [hfields3.2.2.2.2]
    exact h2
  · intro p hp
    have hmem : (anchorKey p, Int.ofNat p.1.confirmation_time) ∈
        anchorFoldP c.tx_graph.anchors [] := by
      rw [hA]
      exact List.mem_map.mpr ⟨p, hp, rfl⟩
    exact hrows3 _ hmem
  · intro p hp
    show tlookup (foldUpd (fun (v : Nat) _ => v) (fun v => v)
      c.indexer.last_revealed []) p.1 = some p.2
    rw [hTR]
    exact tlookup_of_mem hndr (by rw [← @Prod.mk.eta _ _ p] at hp; exact hp)
  · intro dd inner houter q hq
    exact readSpkRows_mem (flattenSpk c.indexer.spk_cache) []
      (flattenSpk_nodupKeys hnds hndsi) ((dd, q.1), q.2) (mem_flattenSpk houter hq)


/-- Claim C1 witness: the amended round trip at a concrete changeset with
one entity of every kind. -/
theorem claimC1_witness :
    ∃ cs, read_changeset (write_changeset richCS emptyDB) = Except.ok cs ∧
      (∀ n, richCS.network = some n → cs.network = some n) ∧
      (∀ x, richCS.descriptor = some x → cs.descriptor = some x) ∧
      (∀ x, richCS.change_descriptor = some x → cs.change_descriptor = some x) ∧
      (∀ h hb, (h, some hb) ∈ richCS.local_chain.blocks →
        tlookup cs.local_chain.blocks h = some (some hb)) ∧
      (∀ tx, tx ∈ richCS.tx_graph.txs → tx ∈ cs.tx_graph.txs) ∧
      (∀ p, p ∈ richCS.tx_graph.first_seen → tlookup cs.tx_graph.first_seen p.1 = some p.2) ∧
      (∀ p, p ∈ richCS.tx_graph.last_seen → tlookup cs.tx_graph.last_seen p.1 = some p.2) ∧
      (∀ p, p ∈ richCS.tx_graph.last_evicted → tlookup cs.tx_graph.last_evicted p.1 = some p.2) ∧
      (∀ p, p ∈ richCS.tx_graph.txouts → tlookup cs.tx_graph.txouts p.1 = some p.2) ∧
      (∀ p, p ∈ richCS.tx_graph.anchors → p ∈ cs.tx_graph.anchors) ∧
      (∀ p, p ∈ richCS.indexer.last_revealed → tlookup cs.indexer.last_revealed p.1 = some p.2) ∧
      (∀ dd inner, (dd, inner) ∈ richCS.indexer.spk_cache → ∀ q, q ∈ inner →
        ∃ inner2, tlookup cs.indexer.spk_cache dd = some inner2 ∧
          tlookup inner2 q.1 = some q.2) :=
  claimC1_roundtrip_amended richCS (by decide) (by decide) (by decide) (by decide)
    (by decide) (by decide) (by decide) (by decide) (by decide) (by decide)
    (by decide) (by decide) (by decide) (by decide) (by decide) (by decide)
    (by decide) (by decide)

end BdkSqlite
